import Mathlib

/-!
Verification of the Confluence storage-format merge engine of the
cert-journal repository (`src/main/utils/storageFormat.ts`, final revision).

JavaScript strings are modelled as `List Char` (abbreviated `Str`).
JavaScript string indices are UTF-16 code-unit offsets; the model uses
code-point offsets, which agree with them on every string of the basic
multilingual plane and are used consistently on both sides of every
statement.  `String.prototype.replace` with a global literal pattern is
modelled by `replaceAll` (leftmost, non-overlapping).  `Array.prototype.sort`
is modelled as a stable sort by the source's comparator, as ECMAScript 2019
and later require of engines.
-/

set_option maxRecDepth 20000

abbrev Str := List Char

/-- The ECMAScript whitespace set used by `String.prototype.trim` and `\s`. -/
def jsWs (c : Char) : Bool :=
  c == ' ' || c == '\t' || c == '\n' || c == '\r' ||
  c == Char.ofNat 11 || c == Char.ofNat 12 || c == Char.ofNat 0xA0 ||
  c == Char.ofNat 0xFEFF || c == Char.ofNat 0x2028 || c == Char.ofNat 0x2029

/-- `String.prototype.trim`. -/
def jsTrim (s : Str) : Str :=
  ((s.dropWhile jsWs).reverse.dropWhile jsWs).reverse

/-- ASCII lower-casing; stands for the (Unicode) `toLowerCase`, whose
behaviour on the ASCII trigger strings of this engine it matches. -/
def asciiLower (c : Char) : Char :=
  if 'A' ≤ c ∧ c ≤ 'Z' then Char.ofNat (c.toNat + 32) else c

/-- Case-insensitive character comparison, the canonicalisation a
case-insensitive regular expression applies to ASCII pattern characters. -/
def lowerEq (a b : Char) : Bool :=
  asciiLower a == asciiLower b

/-- `String.prototype.replace(/lit/g, rep)` for a literal pattern:
leftmost, non-overlapping replacement of every occurrence. -/
def replaceAll (p r : Str) : Str → Str
  | [] => []
  | c :: t =>
    if p ≠ [] ∧ p.isPrefixOf (c :: t) then
      r ++ replaceAll p r ((c :: t).drop p.length)
    else
      c :: replaceAll p r t
termination_by s => s.length
decreasing_by
  · rename_i h
    have hp : 0 < p.length := List.length_pos.mpr h.1
    simp only [List.length_drop, List.length_cons]
    omega
  · simp

/-- Replace every character by a string, concatenated in order. -/
def charExpand (f : Char → Str) : Str → Str
  | [] => []
  | c :: t => f c ++ charExpand f t

/-- `escapeXml` of the source: five sequential global replaces, `&` first. -/
def escapeXml (s : Str) : Str :=
  if s.isEmpty then [] else
  replaceAll [Char.ofNat 39] ("&apos;".data)
    (replaceAll ['"'] ("&quot;".data)
      (replaceAll ['>'] ("&gt;".data)
        (replaceAll ['<'] ("&lt;".data)
          (replaceAll ['&'] ("&amp;".data) s))))

/-- `unescapeXml` of the source: five sequential global replaces, `&amp;` last. -/
def unescapeXml (s : Str) : Str :=
  if s.isEmpty then [] else
  replaceAll ("&amp;".data) ['&']
    (replaceAll ("&apos;".data) [Char.ofNat 39]
      (replaceAll ("&quot;".data) ['"']
        (replaceAll ("&gt;".data) ['>']
          (replaceAll ("&lt;".data) ['<'] s))))

/-- No occurrence of `p` can begin at any offset of the block `x`, whatever
text follows the block.  Decidable sufficient condition used to carry
`replaceAll` across a block unchanged. -/
def blockSafe (p x : Str) : Bool :=
  (List.range x.length).all fun k =>
    !(p.isPrefixOf (x.drop k)) && !((x.drop k).isPrefixOf p)

theorem replaceAll_nil (p r : Str) : replaceAll p r [] = [] := by
  simp [replaceAll]

theorem replaceAll_cons_neg (p r : Str) {c : Char} {t : Str}
    (h : ¬ p.isPrefixOf (c :: t)) :
    replaceAll p r (c :: t) = c :: replaceAll p r t := by
  rw [replaceAll]
  simp [h]

theorem replaceAll_cons_pos (p r t : Str) (hp : p ≠ []) :
    replaceAll p r (p ++ t) = r ++ replaceAll p r t := by
  cases hq : p with
  | nil => exact absurd hq hp
  | cons a q =>
    rw [← hq]
    have hpre : p.isPrefixOf (p ++ t) := by
      simp [List.isPrefixOf_iff_prefix]
    have hne : p ++ t = a :: (q ++ t) := by simp [hq]
    rw [hne, replaceAll]
    rw [← hne]
    simp only [hp, hpre, and_self, ne_eq, not_false_iff, true_and, if_pos]
    rw [List.drop_left]

theorem replaceAll_single (a : Char) (r : Str) :
    ∀ s, replaceAll [a] r s = charExpand (fun c => if c = a then r else [c]) s := by
  intro s
  induction s with
  | nil => simp [replaceAll_nil, charExpand]
  | cons c t ih =>
    by_cases hca : c = a
    · subst hca
      have := replaceAll_cons_pos [c] r t (by simp)
      simp only [List.singleton_append] at this
      rw [this, charExpand, ih]
      simp
    · have hnp : ¬ ([a] : Str).isPrefixOf (c :: t) := by
        simp [List.isPrefixOf]
        intro h
        exact hca h.symm
      rw [replaceAll_cons_neg _ _ hnp, charExpand, ih]
      simp [hca]

theorem blockSafe_no_match {p x : Str} (hs : blockSafe p x = true) :
    ∀ k, k < x.length → ∀ t, ¬ p.isPrefixOf (x.drop k ++ t) := by
  intro k hk t hmatch
  have hx := (List.all_eq_true.mp hs) k (by simpa using List.mem_range.mpr hk)
  simp only [Bool.and_eq_true, Bool.not_eq_true'] at hx
  rw [List.isPrefixOf_iff_prefix] at hmatch
  rcases List.prefix_or_prefix_of_prefix hmatch (List.prefix_append _ t) with h | h
  · exact absurd (List.isPrefixOf_iff_prefix.mpr h) (by simp [hx.1])
  · exact absurd (List.isPrefixOf_iff_prefix.mpr h) (by simp [hx.2])

theorem replaceAll_skip_block (p r x : Str)
    (hx : ∀ k, k < x.length → ∀ t, ¬ p.isPrefixOf (x.drop k ++ t)) :
    ∀ y, replaceAll p r (x ++ y) = x ++ replaceAll p r y := by
  induction x with
  | nil => simp
  | cons c x' ih =>
    intro y
    have h0 : ¬ p.isPrefixOf (c :: (x' ++ y)) := by
      have := hx 0 (by simp) y
      simpa using this
    rw [List.cons_append, replaceAll_cons_neg _ _ h0, ih (fun k hk t => by
      have := hx (k + 1) (by simp; omega) t
      simpa using this)]
    simp

theorem replaceAll_skip_safe (p r x y : Str) (hs : blockSafe p x = true) :
    replaceAll p r (x ++ y) = x ++ replaceAll p r y :=
  replaceAll_skip_block p r x (blockSafe_no_match hs) y

/-- Carrying one multi-character replace across a character-expanded string:
each expanded block is either exactly the pattern (and gets replaced) or can
contain no start of a match. -/
theorem replaceAll_charExpand (p r : Str) (f g : Char → Str) (hp : p ≠ [])
    (h : ∀ c, (f c = p ∧ g c = r) ∨
      (g c = f c ∧ (∀ k, k < (f c).length → ∀ t, ¬ p.isPrefixOf ((f c).drop k ++ t)))) :
    ∀ s, replaceAll p r (charExpand f s) = charExpand g s := by
  intro s
  induction s with
  | nil => simp [charExpand, replaceAll_nil]
  | cons c t ih =>
    rcases h c with ⟨hf, hg⟩ | ⟨hg, hsafe⟩
    · rw [charExpand, hf, replaceAll_cons_pos p r _ hp, ih, charExpand, hg]
    · rw [charExpand, replaceAll_skip_block p r _ hsafe, ih, charExpand, hg]

theorem charExpand_append (f : Char → Str) :
    ∀ x y, charExpand f (x ++ y) = charExpand f x ++ charExpand f y := by
  intro x y
  induction x with
  | nil => simp [charExpand]
  | cons c t ih => simp [charExpand, ih]

theorem charExpand_comp (f g : Char → Str) :
    ∀ s, charExpand f (charExpand g s) = charExpand (fun c => charExpand f (g c)) s := by
  intro s
  induction s with
  | nil => simp [charExpand]
  | cons c t ih => rw [charExpand, charExpand_append, ih, charExpand]

theorem charExpand_congr {f g : Char → Str} (h : ∀ c, f c = g c) :
    ∀ s, charExpand f s = charExpand g s := by
  intro s
  induction s with
  | nil => rfl
  | cons c t ih => rw [charExpand, charExpand, h, ih]

theorem charExpand_id : ∀ s, charExpand (fun c => [c]) s = s := by
  intro s
  induction s with
  | nil => rfl
  | cons c t ih => rw [charExpand, ih]; rfl

theorem charExpand_ne_nil {f : Char → Str} (hf : ∀ c, f c ≠ []) {s : Str}
    (hs : s ≠ []) : charExpand f s ≠ [] := by
  cases s with
  | nil => exact absurd rfl hs
  | cons c t =>
    rw [charExpand]
    intro h
    rcases List.append_eq_nil.mp h with ⟨h1, _⟩
    exact hf c h1

/-- The per-character expansion `escapeXml` amounts to. -/
def escChar (c : Char) : Str :=
  if c = '&' then "&amp;".data
  else if c = '<' then "&lt;".data
  else if c = '>' then "&gt;".data
  else if c = '"' then "&quot;".data
  else if c = Char.ofNat 39 then "&apos;".data
  else [c]

theorem escape_chain (s : Str) :
    replaceAll [Char.ofNat 39] ("&apos;".data)
      (replaceAll ['"'] ("&quot;".data)
        (replaceAll ['>'] ("&gt;".data)
          (replaceAll ['<'] ("&lt;".data)
            (replaceAll ['&'] ("&amp;".data) s)))) = charExpand escChar s := by
  simp only [replaceAll_single, charExpand_comp]
  refine charExpand_congr (fun c => ?_) s
  by_cases h1 : c = '&'
  · subst h1; rfl
  by_cases h2 : c = '<'
  · subst h2; rfl
  by_cases h3 : c = '>'
  · subst h3; rfl
  by_cases h4 : c = '"'
  · subst h4; rfl
  by_cases h5 : c = Char.ofNat 39
  · subst h5; rfl
  · simp [escChar, charExpand, h1, h2, h3, h4, h5]

theorem escapeXml_expand (s : Str) : escapeXml s = charExpand escChar s := by
  cases s with
  | nil => rfl
  | cons c t =>
    rw [escapeXml, if_neg (by simp)]
    exact escape_chain (c :: t)

theorem escChar_ne_nil (c : Char) : escChar c ≠ [] := by
  unfold escChar
  split <;> try simp
  split <;> try simp
  split <;> try simp
  split <;> try simp
  split <;> simp

theorem head_ne_skip {a : Char} {q : Str} {c : Char} (h : a ≠ c) :
    ∀ k, k < ([c] : Str).length → ∀ t, ¬ (a :: q).isPrefixOf (([c] : Str).drop k ++ t) := by
  intro k hk t hpre
  have hk0 : k = 0 := by simpa using hk
  subst hk0
  simp only [List.drop, List.singleton_append, List.isPrefixOf, Bool.and_eq_true,
    beq_iff_eq] at hpre
  exact h hpre.1

theorem singleton_block {p : Str} {a : Char} {q : Str} (hp : p = a :: q) {c : Char}
    (h : a ≠ c) :
    ∀ k, k < ([c] : Str).length → ∀ t, ¬ p.isPrefixOf (([c] : Str).drop k ++ t) := by
  intro k hk t hpre
  have hk0 : k = 0 := by simpa using hk
  subst hk0
  rw [hp] at hpre
  simp only [List.drop, List.singleton_append, List.isPrefixOf, Bool.and_eq_true,
    beq_iff_eq] at hpre
  exact h hpre.1

/-- `escChar` after the `&lt;` entities have been decoded. -/
def escChar1 (c : Char) : Str :=
  if c = '&' then "&amp;".data
  else if c = '<' then ['<']
  else if c = '>' then "&gt;".data
  else if c = '"' then "&quot;".data
  else if c = Char.ofNat 39 then "&apos;".data
  else [c]

/-- ... after `&lt;` and `&gt;`. -/
def escChar2 (c : Char) : Str :=
  if c = '&' then "&amp;".data
  else if c = '"' then "&quot;".data
  else if c = Char.ofNat 39 then "&apos;".data
  else [c]

/-- ... after `&lt;`, `&gt;` and `&quot;`. -/
def escChar3 (c : Char) : Str :=
  if c = '&' then "&amp;".data
  else if c = Char.ofNat 39 then "&apos;".data
  else [c]

/-- ... with only the `&amp;` entities left. -/
def escChar4 (c : Char) : Str :=
  if c = '&' then "&amp;".data else [c]

theorem unescape_step1 (s : Str) :
    replaceAll ("&lt;".data) ['<'] (charExpand escChar s) = charExpand escChar1 s := by
  refine replaceAll_charExpand _ _ _ _ (by simp) (fun c => ?_) s
  by_cases h1 : c = '&'
  · subst h1; exact Or.inr ⟨rfl, blockSafe_no_match (by decide)⟩
  by_cases h2 : c = '<'
  · subst h2; exact Or.inl ⟨rfl, rfl⟩
  by_cases h3 : c = '>'
  · subst h3; exact Or.inr ⟨rfl, blockSafe_no_match (by decide)⟩
  by_cases h4 : c = '"'
  · subst h4; exact Or.inr ⟨rfl, blockSafe_no_match (by decide)⟩
  by_cases h5 : c = Char.ofNat 39
  · subst h5; exact Or.inr ⟨rfl, blockSafe_no_match (by decide)⟩
  · refine Or.inr ⟨by simp [escChar, escChar1, h1, h2, h3, h4, h5], ?_⟩
    have hfc : escChar c = [c] := by simp [escChar, h1, h2, h3, h4, h5]
    rw [hfc]
    exact singleton_block rfl (fun hh => h1 hh.symm)

theorem unescape_step2 (s : Str) :
    replaceAll ("&gt;".data) ['>'] (charExpand escChar1 s) = charExpand escChar2 s := by
  refine replaceAll_charExpand _ _ _ _ (by simp) (fun c => ?_) s
  by_cases h1 : c = '&'
  · subst h1; exact Or.inr ⟨rfl, blockSafe_no_match (by decide)⟩
  by_cases h2 : c = '<'
  · subst h2
    refine Or.inr ⟨rfl, ?_⟩
    rw [show escChar1 '<' = ['<'] from rfl]
    exact singleton_block rfl (by decide)
  by_cases h3 : c = '>'
  · subst h3; exact Or.inl ⟨rfl, rfl⟩
  by_cases h4 : c = '"'
  · subst h4; exact Or.inr ⟨rfl, blockSafe_no_match (by decide)⟩
  by_cases h5 : c = Char.ofNat 39
  · subst h5; exact Or.inr ⟨rfl, blockSafe_no_match (by decide)⟩
  · refine Or.inr ⟨by simp [escChar1, escChar2, h1, h2, h3, h4, h5], ?_⟩
    have hfc : escChar1 c = [c] := by simp [escChar1, h1, h2, h3, h4, h5]
    rw [hfc]
    exact singleton_block rfl (fun hh => h1 hh.symm)

theorem unescape_step3 (s : Str) :
    replaceAll ("&quot;".data) ['"'] (charExpand escChar2 s) = charExpand escChar3 s := by
  refine replaceAll_charExpand _ _ _ _ (by simp) (fun c => ?_) s
  by_cases h1 : c = '&'
  · subst h1; exact Or.inr ⟨rfl, blockSafe_no_match (by decide)⟩
  by_cases h4 : c = '"'
  · subst h4; exact Or.inl ⟨rfl, rfl⟩
  by_cases h5 : c = Char.ofNat 39
  · subst h5; exact Or.inr ⟨rfl, blockSafe_no_match (by decide)⟩
  · refine Or.inr ⟨by simp [escChar2, escChar3, h1, h4, h5], ?_⟩
    have hfc : escChar2 c = [c] := by simp [escChar2, h1, h4, h5]
    rw [hfc]
    exact singleton_block rfl (fun hh => h1 hh.symm)

theorem unescape_step4 (s : Str) :
    replaceAll ("&apos;".data) [Char.ofNat 39] (charExpand escChar3 s) =
      charExpand escChar4 s := by
  refine replaceAll_charExpand _ _ _ _ (by simp) (fun c => ?_) s
  by_cases h1 : c = '&'
  · subst h1; exact Or.inr ⟨rfl, blockSafe_no_match (by decide)⟩
  by_cases h5 : c = Char.ofNat 39
  · subst h5; exact Or.inl ⟨rfl, rfl⟩
  · refine Or.inr ⟨by simp [escChar3, escChar4, h1, h5], ?_⟩
    have hfc : escChar3 c = [c] := by simp [escChar3, h1, h5]
    rw [hfc]
    exact singleton_block rfl (fun hh => h1 hh.symm)

theorem unescape_step5 (s : Str) :
    replaceAll ("&amp;".data) ['&'] (charExpand escChar4 s) = s := by
  have : replaceAll ("&amp;".data) ['&'] (charExpand escChar4 s) =
      charExpand (fun c => [c]) s := by
    refine replaceAll_charExpand _ _ _ _ (by simp) (fun c => ?_) s
    by_cases h1 : c = '&'
    · subst h1; exact Or.inl ⟨rfl, rfl⟩
    · refine Or.inr ⟨by simp [escChar4, h1], ?_⟩
      have hfc : escChar4 c = [c] := by simp [escChar4, h1]
      rw [hfc]
      exact singleton_block rfl (fun hh => h1 hh.symm)
  rw [this, charExpand_id]

/-- Decoding inverts encoding: `unescapeXml (escapeXml s) = s` for every string. -/
theorem unescapeXml_escapeXml (s : Str) : unescapeXml (escapeXml s) = s := by
  cases s with
  | nil => rfl
  | cons c t =>
    rw [escapeXml_expand]
    have hne : charExpand escChar (c :: t) ≠ [] :=
      charExpand_ne_nil escChar_ne_nil (by simp)
    rw [unescapeXml, if_neg (by simpa using hne)]
    rw [unescape_step1, unescape_step2, unescape_step3, unescape_step4, unescape_step5]

/-- One table record (`TableRow` of `src/shared/types/settings.ts`). -/
structure TableRow where
  expiration : Str
  cn : Str
  sans : List Str
  issuingCA : Str
  requestor : Str
  location : Str
  distributionGroup : Str
  notes : Str
deriving DecidableEq, Repr

/-- The `<ul><li>…</li></ul>` fragment `buildTableRow` renders for the SANs
column (empty when there are no SANs). -/
def sansListHtml (sans : List Str) : Str :=
  if sans.length > 0 then
    "<ul>".data ++
      (sans.map (fun san => "<li>".data ++ escapeXml san ++ "</li>".data)).flatten ++
      "</ul>".data
  else []

/-- `buildTableRow` of the source: the row template literal with each cell's
text escaped. -/
def buildTableRow (row : TableRow) : Str :=
  "<tr>\n<td style=\"min-width: 90px;\">".data ++ escapeXml row.expiration ++
  "</td>\n<td style=\"min-width: 200px; max-width: 300px; word-wrap: break-word;\">".data ++
    escapeXml row.cn ++
  "</td>\n<td style=\"min-width: 250px; max-width: 350px; word-wrap: break-word;\">".data ++
    sansListHtml row.sans ++
  "</td>\n<td style=\"min-width: 150px; max-width: 200px; word-wrap: break-word;\">".data ++
    escapeXml row.issuingCA ++
  "</td>\n<td style=\"min-width: 120px; max-width: 180px; word-wrap: break-word;\">".data ++
    escapeXml row.requestor ++
  "</td>\n<td style=\"min-width: 120px; max-width: 180px; word-wrap: break-word;\">".data ++
    escapeXml row.location ++
  "</td>\n<td style=\"min-width: 150px; max-width: 200px; word-wrap: break-word;\">".data ++
    escapeXml row.distributionGroup ++
  "</td>\n<td style=\"min-width: 200px; max-width: 300px; word-wrap: break-word;\">".data ++
    escapeXml row.notes ++
  "</td>\n</tr>".data

/-- Consume the literal `pat` case-insensitively at the head of `s`. -/
def stripLitCI (pat : Str) (s : Str) : Option Str :=
  match pat, s with
  | [], rest => some rest
  | _ :: _, [] => none
  | a :: ps, c :: cs => if lowerEq a c then stripLitCI ps cs else none

/-- Consume `[^>]*>`: everything up to and including the first `>`. -/
def dropNotGt : Str → Option Str
  | [] => none
  | c :: t => if c = '>' then some t else dropNotGt t

/-- Lazy capture `([\s\S]*?)pat` (case-insensitive): the text before the
first occurrence of `pat`, and the rest after it. -/
def takeUntilLitCI (pat : Str) : Str → Option (Str × Str)
  | [] =>
    match stripLitCI pat [] with
    | some r => some ([], r)
    | none => none
  | c :: t =>
    match stripLitCI pat (c :: t) with
    | some r => some ([], r)
    | none => (takeUntilLitCI pat t).map (fun pr => (c :: pr.1, pr.2))

/-- An anchored match of `/topen[^>]*>([\\s\\S]*?)tclose/i`: the captured
text and the rest of the input after the closing literal.  Instantiated with
`<td`/`</td>` and `<li`/`</li>` for the two row-parsing regexes. -/
def matchTagAt (topen tclose : Str) (s : Str) : Option (Str × Str) :=
  match stripLitCI topen s with
  | none => none
  | some s1 =>
    match dropNotGt s1 with
    | none => none
    | some s2 => takeUntilLitCI tclose s2

theorem stripLitCI_length {pat s r : Str} (h : stripLitCI pat s = some r) :
    r.length + pat.length = s.length := by
  induction pat generalizing s with
  | nil => simp [stripLitCI] at h; simp [h]
  | cons a ps ih =>
    cases s with
    | nil => simp [stripLitCI] at h
    | cons c cs =>
      rw [stripLitCI] at h
      by_cases hle : lowerEq a c = true
      · rw [if_pos hle] at h
        have := ih h
        simp at this ⊢
        omega
      · rw [if_neg hle] at h; cases h

theorem dropNotGt_length {s r : Str} (h : dropNotGt s = some r) :
    r.length < s.length := by
  induction s with
  | nil => simp [dropNotGt] at h
  | cons c t ih =>
    rw [dropNotGt] at h
    by_cases hc : c = '>'
    · rw [if_pos hc] at h
      cases h
      simp
    · rw [if_neg hc] at h
      have := ih h
      simp
      omega

theorem takeUntilLitCI_length {pat : Str} :
    ∀ {s : Str} {pr : Str × Str}, takeUntilLitCI pat s = some pr →
      pr.2.length + pat.length + pr.1.length = s.length := by
  intro s
  induction s with
  | nil =>
    intro pr h
    rw [takeUntilLitCI] at h
    cases hs : stripLitCI pat [] with
    | none => rw [hs] at h; cases h
    | some r =>
      rw [hs] at h
      cases h
      have := stripLitCI_length hs
      simpa using this
  | cons c t ih =>
    intro pr h
    rw [takeUntilLitCI] at h
    cases hs : stripLitCI pat (c :: t) with
    | some r =>
      rw [hs] at h
      cases h
      have := stripLitCI_length hs
      simpa using this
    | none =>
      rw [hs] at h
      cases hrec : takeUntilLitCI pat t with
      | none => rw [hrec] at h; cases h
      | some pr' =>
        rw [hrec] at h
        cases h
        have := ih hrec
        simp at this ⊢
        omega

theorem matchTagAt_length {topen tclose : Str} {s : Str} {pr : Str × Str}
    (ho : topen ≠ []) (h : matchTagAt topen tclose s = some pr) :
    pr.2.length < s.length := by
  rw [matchTagAt] at h
  cases h1 : stripLitCI topen s with
  | none => rw [h1] at h; cases h
  | some s1 =>
    rw [h1] at h
    dsimp only at h
    cases h2 : dropNotGt s1 with
    | none => rw [h2] at h; cases h
    | some s2 =>
      rw [h2] at h
      dsimp only at h
      have l1 := stripLitCI_length h1
      have l2 := dropNotGt_length h2
      have l3 := takeUntilLitCI_length h
      have lo : 0 < topen.length := List.length_pos.mpr ho
      omega

/-- The global scan `while ((match = pat.exec(html)) !== null)` for a
`topen[^>]*>(lazy)tclose` pattern: all captured texts, left to right, the
scan resuming after each full match and advancing one character past a
failed start. -/
def scanTags (topen tclose : Str) (ho : topen ≠ []) : Str → List Str
  | [] => []
  | c :: t =>
    match h : matchTagAt topen tclose (c :: t) with
    | some pr => pr.1 :: scanTags topen tclose ho pr.2
    | none => scanTags topen tclose ho t
termination_by s => s.length
decreasing_by
  · exact matchTagAt_length ho h
  · simp

/-- The `tdPattern` scan of `parseTableRow`. -/
def extractTds (s : Str) : List Str :=
  scanTags ("<td".data) ("</td>".data) (by simp) s

/-- The `liPattern` scan of `parseTableRow`. -/
def extractLis (s : Str) : List Str :=
  scanTags ("<li".data) ("</li>".data) (by simp) s

/-- `parseTableRow` of the source: extract the cells (`cells`, here written
out as `extractTds rowHtml`), require at least 8, decode the SANs list from
the third cell (dropping empty items), unescape and trim every cell. -/
def parseTableRow (rowHtml : Str) : Option TableRow :=
  if (extractTds rowHtml).length < 8 then none
  else
    some {
      expiration := unescapeXml (jsTrim ((extractTds rowHtml).getD 0 [])),
      cn := unescapeXml (jsTrim ((extractTds rowHtml).getD 1 [])),
      sans := ((extractLis ((extractTds rowHtml).getD 2 [])).map
        (fun li => unescapeXml (jsTrim li))).filter (fun san => !san.isEmpty),
      issuingCA := unescapeXml (jsTrim ((extractTds rowHtml).getD 3 [])),
      requestor := unescapeXml (jsTrim ((extractTds rowHtml).getD 4 [])),
      location := unescapeXml (jsTrim ((extractTds rowHtml).getD 5 [])),
      distributionGroup := unescapeXml (jsTrim ((extractTds rowHtml).getD 6 [])),
      notes := unescapeXml (jsTrim ((extractTds rowHtml).getD 7 [])) }

theorem char_toNat_ofNat_valid {m : Nat} (h : m.isValidChar) :
    (Char.ofNat m).toNat = m := by
  unfold Char.ofNat
  rw [dif_pos h]
  unfold Char.ofNatAux Char.toNat
  simp [UInt32.toNat, BitVec.toNat_ofNatLt]

theorem asciiLower_eq_lt {c : Char} (h : asciiLower c = '<') : c = '<' := by
  unfold asciiLower at h
  by_cases hr : 'A' ≤ c ∧ c ≤ 'Z'
  · rw [if_pos hr] at h
    rcases hr with ⟨h1, h2⟩
    have t1 : ('A' : Char).toNat ≤ c.toNat := h1
    have t2 : c.toNat ≤ ('Z' : Char).toNat := h2
    have hAZ1 : ('A' : Char).toNat = 65 := by decide
    have hAZ2 : ('Z' : Char).toNat = 90 := by decide
    rw [hAZ1] at t1
    rw [hAZ2] at t2
    have hv : (c.toNat + 32).isValidChar := by
      left
      omega
    have := congrArg Char.toNat h
    rw [char_toNat_ofNat_valid hv] at this
    have h60 : ('<').toNat = 60 := by decide
    rw [h60] at this
    omega
  · rwa [if_neg hr] at h

theorem lowerEq_refl (a : Char) : lowerEq a a = true := by
  simp [lowerEq]

theorem lowerEq_lt_eq {c : Char} (h : lowerEq '<' c = true) : c = '<' := by
  have : asciiLower '<' = asciiLower c := by simpa [lowerEq] using h
  exact asciiLower_eq_lt (by rw [← this]; rfl)

theorem stripLitCI_self (pat : Str) : ∀ y, stripLitCI pat (pat ++ y) = some y := by
  induction pat with
  | nil => intro y; rfl
  | cons a ps ih =>
    intro y
    rw [List.cons_append, stripLitCI, if_pos (lowerEq_refl a)]
    exact ih y

theorem stripLitCI_lt_head {ps : Str} {c : Char} (hc : c ≠ '<') (t : Str) :
    stripLitCI ('<' :: ps) (c :: t) = none := by
  rw [stripLitCI, if_neg]
  intro h
  exact hc (lowerEq_lt_eq h)

/-- `pat` mismatches `z` at some position inside `z` itself, so that no
continuation of `z` can make the literal match. -/
def ciMismatch (pat z : Str) : Bool :=
  match pat, z with
  | [], _ => false
  | _ :: _, [] => false
  | a :: ps, c :: cs => !(lowerEq a c) || ciMismatch ps cs

theorem ciMismatch_strip {pat : Str} :
    ∀ {z : Str}, ciMismatch pat z = true → ∀ y, stripLitCI pat (z ++ y) = none := by
  induction pat with
  | nil => intro z h; rw [ciMismatch] at h; cases h
  | cons a ps ih =>
    intro z h y
    cases z with
    | nil => rw [ciMismatch] at h; cases h
    | cons c cs =>
      rw [ciMismatch] at h
      rw [List.cons_append, stripLitCI]
      by_cases hle : lowerEq a c = true
      · rw [if_pos hle]
        simp [hle] at h
        exact ih h y
      · rw [if_neg hle]

/-- `pat` cannot match starting anywhere inside `x` (decidable form). -/
def ciSafe (pat x : Str) : Bool :=
  (List.range x.length).all fun k => ciMismatch pat (x.drop k)

theorem ciSafe_strip {pat x : Str} (h : ciSafe pat x = true) :
    ∀ k, k < x.length → ∀ y, stripLitCI pat (x.drop k ++ y) = none := by
  intro k hk y
  have := (List.all_eq_true.mp h) k (by simpa using List.mem_range.mpr hk)
  exact ciMismatch_strip this y

/-- A block free of `<` admits no start of a `'<' :: ps` literal. -/
theorem ltFree_strip {x : Str} (hx : ∀ c ∈ x, c ≠ '<') (ps : Str) :
    ∀ k, k < x.length → ∀ y, stripLitCI ('<' :: ps) (x.drop k ++ y) = none := by
  intro k hk y
  rw [List.drop_eq_getElem_cons hk, List.cons_append]
  exact stripLitCI_lt_head (hx _ (List.getElem_mem hk)) _

theorem dropNotGt_through {mid : Str} (hmid : ∀ c ∈ mid, c ≠ '>') (y : Str) :
    dropNotGt (mid ++ '>' :: y) = some y := by
  induction mid with
  | nil => simp [dropNotGt]
  | cons c m ih =>
    rw [List.cons_append, dropNotGt, if_neg (hmid c (by simp))]
    exact ih (fun d hd => hmid d (by simp [hd]))

theorem takeUntilLitCI_hit (pat : Str) (y : Str) :
    takeUntilLitCI pat (pat ++ y) = some ([], y) := by
  cases hp : pat ++ y with
  | nil =>
    rcases List.append_eq_nil.mp hp with ⟨h1, h2⟩
    subst h1; subst h2
    rfl
  | cons c t =>
    rw [takeUntilLitCI, ← hp, stripLitCI_self pat y]

theorem takeUntilLitCI_skip {pat x y : Str} {cap rest : Str}
    (hx : ∀ k, k < x.length → ∀ y', stripLitCI pat (x.drop k ++ y') = none)
    (hy : takeUntilLitCI pat y = some (cap, rest)) :
    takeUntilLitCI pat (x ++ y) = some (x ++ cap, rest) := by
  induction x with
  | nil => simpa using hy
  | cons c x' ih =>
    rw [List.cons_append, takeUntilLitCI]
    have h0 := hx 0 (by simp) y
    simp only [List.drop, List.cons_append] at h0
    rw [h0]
    have := ih (fun k hk y' => by
      have := hx (k + 1) (by simp; omega) y'
      simpa using this)
    rw [this]
    simp

theorem matchTagAt_none {topen tclose s : Str}
    (h : stripLitCI topen s = none) : matchTagAt topen tclose s = none := by
  rw [matchTagAt, h]

theorem scanTags_nil (topen tclose : Str) (ho : topen ≠ []) :
    scanTags topen tclose ho [] = [] := by
  rw [scanTags]

theorem scanTags_cons_some {topen tclose : Str} {ho : topen ≠ []} {c : Char}
    {t cap rest : Str} (h : matchTagAt topen tclose (c :: t) = some (cap, rest)) :
    scanTags topen tclose ho (c :: t) = cap :: scanTags topen tclose ho rest := by
  rw [scanTags]
  split
  · rename_i pr hpr
    rw [h] at hpr
    cases hpr
    rfl
  · rename_i hpr
    rw [h] at hpr
    cases hpr

theorem scanTags_cons_none {topen tclose : Str} {ho : topen ≠ []} {c : Char}
    {t : Str} (h : matchTagAt topen tclose (c :: t) = none) :
    scanTags topen tclose ho (c :: t) = scanTags topen tclose ho t := by
  rw [scanTags]
  split
  · rename_i pr hpr
    rw [h] at hpr
    cases hpr
  · rfl

theorem scanTags_skip {topen tclose x : Str} {ho : topen ≠ []}
    (hx : ∀ k, k < x.length → ∀ y', stripLitCI topen (x.drop k ++ y') = none) :
    ∀ y, scanTags topen tclose ho (x ++ y) = scanTags topen tclose ho y := by
  induction x with
  | nil => simp
  | cons c x' ih =>
    intro y
    have h0 := hx 0 (by simp) y
    simp only [List.drop, List.cons_append] at h0
    rw [List.cons_append, scanTags_cons_none (matchTagAt_none h0)]
    exact ih (fun k hk y' => by
      have := hx (k + 1) (by simp; omega) y'
      simpa using this) y

/-- One full tag match at the head of the scan input. -/
theorem scanTags_cell {topen tclose mid cell rest : Str} {ho : topen ≠ []}
    (hmid : ∀ c ∈ mid, c ≠ '>')
    (hcap : takeUntilLitCI tclose (cell ++ (tclose ++ rest)) = some (cell, rest)) :
    scanTags topen tclose ho (topen ++ (mid ++ ('>' :: (cell ++ (tclose ++ rest))))) =
      cell :: scanTags topen tclose ho rest := by
  have hm : matchTagAt topen tclose
      (topen ++ (mid ++ ('>' :: (cell ++ (tclose ++ rest))))) = some (cell, rest) := by
    rw [matchTagAt, stripLitCI_self]
    dsimp only
    rw [dropNotGt_through hmid]
    exact hcap
  cases hx : topen ++ (mid ++ ('>' :: (cell ++ (tclose ++ rest)))) with
  | nil =>
    rcases List.append_eq_nil.mp hx with ⟨h1, _⟩
    exact absurd h1 ho
  | cons c t =>
    rw [hx] at hm
    exact scanTags_cons_some hm

theorem mem_charExpand {f : Char → Str} {c' : Char} :
    ∀ {s : Str}, c' ∈ charExpand f s → ∃ c ∈ s, c' ∈ f c := by
  intro s
  induction s with
  | nil => intro h; cases h
  | cons c t ih =>
    intro h
    rw [charExpand] at h
    rcases List.mem_append.mp h with h | h
    · exact ⟨c, by simp, h⟩
    · rcases ih h with ⟨d, hd, hfd⟩
      exact ⟨d, by simp [hd], hfd⟩

theorem escChar_ltFree (c : Char) : ∀ c' ∈ escChar c, c' ≠ '<' := by
  intro c' h
  unfold escChar at h
  by_cases h1 : c = '&'
  · simp [h1] at h
    rcases h with h | h | h | h | h <;> simp [h]
  by_cases h2 : c = '<'
  · simp [h1, h2] at h
    rcases h with h | h | h | h <;> simp [h]
  by_cases h3 : c = '>'
  · simp [h1, h2, h3] at h
    rcases h with h | h | h | h <;> simp [h]
  by_cases h4 : c = '"'
  · simp [h1, h2, h3, h4] at h
    rcases h with h | h | h | h | h | h <;> simp [h]
  by_cases h5 : c = Char.ofNat 39
  · simp [h1, h2, h3, h4, h5] at h
    rcases h with h | h | h | h | h | h <;> simp [h]
  · simp [h1, h2, h3, h4, h5] at h
    simp [h, h2]

theorem escapeXml_ltFree {s : Str} : ∀ c' ∈ escapeXml s, c' ≠ '<' := by
  intro c' h
  rw [escapeXml_expand] at h
  rcases mem_charExpand h with ⟨c, _, hc⟩
  exact escChar_ltFree c c' hc

theorem tdClose_capture {cell rest : Str} (h : ∀ c ∈ cell, c ≠ '<') :
    takeUntilLitCI ("</td>".data) (cell ++ ("</td>".data ++ rest)) =
      some (cell, rest) := by
  have h1 : takeUntilLitCI ("</td>".data) (("</td>".data : Str) ++ rest) =
      some ([], rest) := takeUntilLitCI_hit _ _
  have h2 := takeUntilLitCI_skip
    (fun k hk y' => ltFree_strip h ("/td>".data) k hk y') h1
  simpa using h2

theorem liClose_capture {cell rest : Str} (h : ∀ c ∈ cell, c ≠ '<') :
    takeUntilLitCI ("</li>".data) (cell ++ ("</li>".data ++ rest)) =
      some (cell, rest) := by
  have h1 : takeUntilLitCI ("</li>".data) (("</li>".data : Str) ++ rest) =
      some ([], rest) := takeUntilLitCI_hit _ _
  have h2 := takeUntilLitCI_skip
    (fun k hk y' => ltFree_strip h ("/li>".data) k hk y') h1
  simpa using h2

theorem scanTags_of_safe {topen tclose x : Str} {ho : topen ≠ []}
    (hx : ∀ k, k < x.length → ∀ y', stripLitCI topen (x.drop k ++ y') = none) :
    scanTags topen tclose ho x = [] := by
  have := @scanTags_skip topen tclose x ho hx []
  simpa [scanTags_nil] using this

/-- Capturing the whole SANs cell: the first `</td>` after the `<ul>` list is
the cell's own closing tag. -/
theorem sansItems_capture (rest : Str) : ∀ sans : List Str,
    takeUntilLitCI ("</td>".data)
      ((sans.map (fun san => "<li>".data ++ escapeXml san ++ "</li>".data)).flatten ++
        ("</ul>".data ++ ("</td>".data ++ rest))) =
    some ((sans.map (fun san => "<li>".data ++ escapeXml san ++ "</li>".data)).flatten ++
      "</ul>".data, rest) := by
  intro sans
  induction sans with
  | nil =>
    simp only [List.map_nil, List.flatten_nil, List.nil_append]
    have h1 : takeUntilLitCI ("</td>".data) (("</td>".data : Str) ++ rest) =
        some ([], rest) := takeUntilLitCI_hit _ _
    have h2 := takeUntilLitCI_skip
      (@ciSafe_strip "</td>".data "</ul>".data (by decide)) h1
    simpa using h2
  | cons san sans' ih =>
    simp only [List.map_cons, List.flatten_cons, List.append_assoc]
    have s3 := takeUntilLitCI_skip
      (@ciSafe_strip "</td>".data "</li>".data (by decide)) ih
    have s2 := takeUntilLitCI_skip
      (fun k hk y' =>
        ltFree_strip (x := escapeXml san) escapeXml_ltFree ("/td>".data) k hk y') s3
    have s1 := takeUntilLitCI_skip
      (@ciSafe_strip "</td>".data "<li>".data (by decide)) s2
    simpa [List.append_assoc] using s1

theorem sansCell_capture (sans : List Str) (rest : Str) :
    takeUntilLitCI ("</td>".data) (sansListHtml sans ++ ("</td>".data ++ rest)) =
      some (sansListHtml sans, rest) := by
  unfold sansListHtml
  by_cases hs : sans.length > 0
  · rw [if_pos hs]
    have h0 := sansItems_capture rest sans
    have h1 := takeUntilLitCI_skip
      (@ciSafe_strip "</td>".data "<ul>".data (by decide)) h0
    simpa [List.append_assoc] using h1
  · rw [if_neg hs]
    simpa using takeUntilLitCI_hit ("</td>".data) rest


theorem buildTableRow_shape (r : TableRow) :
    buildTableRow r =
      "<tr>\n".data ++ ("<td".data ++ (" style=\"min-width: 90px;\"".data ++ ('>' :: (escapeXml r.expiration ++ ("</td>".data ++ "\n".data ++ ("<td".data ++ (" style=\"min-width: 200px; max-width: 300px; word-wrap: break-word;\"".data ++ ('>' :: (escapeXml r.cn ++ ("</td>".data ++ "\n".data ++ ("<td".data ++ (" style=\"min-width: 250px; max-width: 350px; word-wrap: break-word;\"".data ++ ('>' :: (sansListHtml r.sans ++ ("</td>".data ++ "\n".data ++ ("<td".data ++ (" style=\"min-width: 150px; max-width: 200px; word-wrap: break-word;\"".data ++ ('>' :: (escapeXml r.issuingCA ++ ("</td>".data ++ "\n".data ++ ("<td".data ++ (" style=\"min-width: 120px; max-width: 180px; word-wrap: break-word;\"".data ++ ('>' :: (escapeXml r.requestor ++ ("</td>".data ++ "\n".data ++ ("<td".data ++ (" style=\"min-width: 120px; max-width: 180px; word-wrap: break-word;\"".data ++ ('>' :: (escapeXml r.location ++ ("</td>".data ++ "\n".data ++ ("<td".data ++ (" style=\"min-width: 150px; max-width: 200px; word-wrap: break-word;\"".data ++ ('>' :: (escapeXml r.distributionGroup ++ ("</td>".data ++ "\n".data ++ ("<td".data ++ (" style=\"min-width: 200px; max-width: 300px; word-wrap: break-word;\"".data ++ ('>' :: (escapeXml r.notes ++ ("</td>".data ++ "\n</tr>".data)))))))))))))))))))))))))))))))))))))))) := by
  simp [buildTableRow, List.append_assoc]

theorem extractTds_buildTableRow (r : TableRow) :
    extractTds (buildTableRow r) =
      [escapeXml r.expiration, escapeXml r.cn, sansListHtml r.sans,
       escapeXml r.issuingCA, escapeXml r.requestor, escapeXml r.location,
       escapeXml r.distributionGroup, escapeXml r.notes] := by
  unfold extractTds
  rw [buildTableRow_shape]
  refine (scanTags_skip (@ciSafe_strip "<td".data "<tr>\n".data (by decide)) _).trans ?_
  refine (scanTags_cell (by decide) (tdClose_capture (escapeXml_ltFree (s := r.expiration)))).trans ?_
  refine congrArg (List.cons _) ?_
  refine (scanTags_skip (@ciSafe_strip "<td".data "\n".data (by decide)) _).trans ?_
  refine (scanTags_cell (by decide) (tdClose_capture (escapeXml_ltFree (s := r.cn)))).trans ?_
  refine congrArg (List.cons _) ?_
  refine (scanTags_skip (@ciSafe_strip "<td".data "\n".data (by decide)) _).trans ?_
  refine (scanTags_cell (by decide) (sansCell_capture r.sans _)).trans ?_
  refine congrArg (List.cons _) ?_
  refine (scanTags_skip (@ciSafe_strip "<td".data "\n".data (by decide)) _).trans ?_
  refine (scanTags_cell (by decide) (tdClose_capture (escapeXml_ltFree (s := r.issuingCA)))).trans ?_
  refine congrArg (List.cons _) ?_
  refine (scanTags_skip (@ciSafe_strip "<td".data "\n".data (by decide)) _).trans ?_
  refine (scanTags_cell (by decide) (tdClose_capture (escapeXml_ltFree (s := r.requestor)))).trans ?_
  refine congrArg (List.cons _) ?_
  refine (scanTags_skip (@ciSafe_strip "<td".data "\n".data (by decide)) _).trans ?_
  refine (scanTags_cell (by decide) (tdClose_capture (escapeXml_ltFree (s := r.location)))).trans ?_
  refine congrArg (List.cons _) ?_
  refine (scanTags_skip (@ciSafe_strip "<td".data "\n".data (by decide)) _).trans ?_
  refine (scanTags_cell (by decide) (tdClose_capture (escapeXml_ltFree (s := r.distributionGroup)))).trans ?_
  refine congrArg (List.cons _) ?_
  refine (scanTags_skip (@ciSafe_strip "<td".data "\n".data (by decide)) _).trans ?_
  refine (scanTags_cell (by decide) (tdClose_capture (escapeXml_ltFree (s := r.notes)))).trans ?_
  refine congrArg (List.cons _) ?_
  exact scanTags_of_safe (@ciSafe_strip "<td".data "\n</tr>".data (by decide))

theorem extractLis_items (ho : ("<li".data : Str) ≠ []) :
    ∀ sans : List Str,
    scanTags ("<li".data) ("</li>".data) ho
      ((sans.map (fun san => "<li>".data ++ escapeXml san ++ "</li>".data)).flatten ++
        "</ul>".data) = sans.map escapeXml := by
  intro sans
  induction sans with
  | nil =>
    simp only [List.map_nil, List.flatten_nil, List.nil_append]
    exact scanTags_of_safe (@ciSafe_strip "<li".data "</ul>".data (by decide))
  | cons san sans' ih =>
    simp only [List.map_cons, List.flatten_cons, List.append_assoc]
    refine Eq.trans ?_ (congrArg (List.cons (escapeXml san)) ih)
    exact @scanTags_cell _ _ ([] : Str) _ _ _ (by simp)
      (liClose_capture (escapeXml_ltFree (s := san)))

theorem extractLis_sansListHtml (sans : List Str) :
    extractLis (sansListHtml sans) = sans.map escapeXml := by
  unfold extractLis sansListHtml
  by_cases hs : sans.length > 0
  · rw [if_pos hs]
    refine (scanTags_skip (@ciSafe_strip "<li".data "<ul>".data
      (by decide)) _).trans ?_
    exact extractLis_items _ sans
  · rw [if_neg hs]
    have hnil : sans = [] := by
      cases sans with
      | nil => rfl
      | cons a l => simp at hs
    subst hnil
    simp [scanTags_nil]

/-- "Escape-safe" text: the value neither starts nor ends with whitespace,
so that the `trim` applied by the decoder leaves the escaped value intact.
The five markup metacharacters are allowed. -/
def escapeSafe (s : Str) : Bool :=
  (match s.head? with
   | some a => !jsWs a
   | none => true) &&
  (match s.getLast? with
   | some a => !jsWs a
   | none => true)

theorem escapeSafe_head {s : Str} (h : escapeSafe s = true) :
    ∀ a, s.head? = some a → jsWs a = false := by
  intro a ha
  unfold escapeSafe at h
  rw [ha] at h
  simp at h
  simp [h.1]

theorem escapeSafe_last {s : Str} (h : escapeSafe s = true) :
    ∀ a, s.getLast? = some a → jsWs a = false := by
  intro a ha
  unfold escapeSafe at h
  rw [ha] at h
  simp at h
  simp [h.2]

theorem dropWhile_eq_self_of_head {p : Char → Bool} {s : Str}
    (h : ∀ a, s.head? = some a → p a = false) : s.dropWhile p = s := by
  cases s with
  | nil => rfl
  | cons c t =>
    rw [List.dropWhile_cons, h c rfl]
    simp

theorem jsTrim_eq_self {s : Str} (h : escapeSafe s = true) : jsTrim s = s := by
  unfold jsTrim
  rw [dropWhile_eq_self_of_head (escapeSafe_head h)]
  rw [dropWhile_eq_self_of_head (fun a ha => escapeSafe_last h a (by
    rwa [List.head?_reverse] at ha))]
  simp

theorem escapeSafe_of_head_last {s : Str}
    (h1 : ∀ a, s.head? = some a → jsWs a = false)
    (h2 : ∀ a, s.getLast? = some a → jsWs a = false) : escapeSafe s = true := by
  unfold escapeSafe
  cases hh : s.head? with
  | none =>
    cases hl : s.getLast? with
    | none => simp
    | some a => simp [h2 a hl]
  | some a =>
    cases hl : s.getLast? with
    | none => simp [h1 a hh]
    | some b => simp [h1 a hh, h2 b hl]

theorem escChar_head_safe {c : Char} (hc : jsWs c = false) :
    ∀ a, (escChar c).head? = some a → jsWs a = false := by
  intro a ha
  unfold escChar at ha
  by_cases h1 : c = '&'
  · simp [h1] at ha; rw [← ha]; decide
  by_cases h2 : c = '<'
  · simp [h1, h2] at ha; rw [← ha]; decide
  by_cases h3 : c = '>'
  · simp [h1, h2, h3] at ha; rw [← ha]; decide
  by_cases h4 : c = '"'
  · simp [h1, h2, h3, h4] at ha; rw [← ha]; decide
  by_cases h5 : c = Char.ofNat 39
  · simp [h1, h2, h3, h4, h5] at ha; rw [← ha]; decide
  · simp [h1, h2, h3, h4, h5] at ha
    rw [← ha]
    exact hc

theorem escChar_last_safe {c : Char} (hc : jsWs c = false) :
    ∀ a, (escChar c).getLast? = some a → jsWs a = false := by
  intro a ha
  unfold escChar at ha
  by_cases h1 : c = '&'
  · simp [h1] at ha; rw [← ha]; decide
  by_cases h2 : c = '<'
  · simp [h1, h2] at ha; rw [← ha]; decide
  by_cases h3 : c = '>'
  · simp [h1, h2, h3] at ha; rw [← ha]; decide
  by_cases h4 : c = '"'
  · simp [h1, h2, h3, h4] at ha; rw [← ha]; decide
  by_cases h5 : c = Char.ofNat 39
  · simp [h1, h2, h3, h4, h5] at ha; rw [← ha]; decide
  · simp [h1, h2, h3, h4, h5] at ha
    rw [← ha]
    exact hc

theorem escapeSafe_escapeXml {s : Str} (h : escapeSafe s = true) :
    escapeSafe (escapeXml s) = true := by
  rw [escapeXml_expand]
  cases s with
  | nil => rfl
  | cons c t =>
    refine escapeSafe_of_head_last ?_ ?_
    · intro a ha
      rw [charExpand] at ha
      have hne := escChar_ne_nil c
      rw [List.head?_append_of_ne_nil _ hne] at ha
      exact escChar_head_safe (escapeSafe_head h c rfl) a ha
    · intro a ha
      have hlast : (c :: t).getLast? = some ((c :: t).getLast (by simp)) :=
        List.getLast?_eq_getLast _ _
      have hlw := escapeSafe_last h _ hlast
      have key : ∀ u : Str, u ≠ [] →
          (∀ b, u.getLast? = some b → jsWs b = false) →
          ∀ a, (charExpand escChar u).getLast? = some a → jsWs a = false := by
        intro u
        induction u with
        | nil => intro hu; exact absurd rfl hu
        | cons d v ihv =>
          intro _ hu a ha
          cases hv : v with
          | nil =>
            subst hv
            rw [charExpand, charExpand, List.append_nil] at ha
            exact escChar_last_safe (hu d rfl) a ha
          | cons e w =>
            subst hv
            rw [charExpand, List.getLast?_append_of_ne_nil _
              (charExpand_ne_nil (s := e :: w) escChar_ne_nil (by simp))] at ha
            refine ihv (by simp) ?_ a ha
            intro b hb
            refine hu b ?_
            rw [List.getLast?_cons_cons]
            exact hb
      exact key (c :: t) (by simp) (fun b hb => escapeSafe_last h b hb) a ha

/-- C2 — Row codec round trip: decoding an encoded row yields the record
back, for every record whose text fields are escape-safe (no leading or
trailing whitespace; the five markup metacharacters are allowed) and whose
SAN entries are nonempty. -/
theorem row_codec_round_trip : ∀ r : TableRow,
    escapeSafe r.expiration = true → escapeSafe r.cn = true →
    escapeSafe r.issuingCA = true → escapeSafe r.requestor = true →
    escapeSafe r.location = true → escapeSafe r.distributionGroup = true →
    escapeSafe r.notes = true →
    (∀ san ∈ r.sans, escapeSafe san = true ∧ san ≠ []) →
    parseTableRow (buildTableRow r) = some r := by
  intro r h0 h1 h3 h4 h5 h6 h7 hsans
  unfold parseTableRow
  rw [extractTds_buildTableRow]
  rw [if_neg (by simp)]
  simp only [List.getD_cons_zero, List.getD_cons_succ]
  rw [extractLis_sansListHtml]
  rw [jsTrim_eq_self (escapeSafe_escapeXml h0), unescapeXml_escapeXml,
    jsTrim_eq_self (escapeSafe_escapeXml h1), unescapeXml_escapeXml,
    jsTrim_eq_self (escapeSafe_escapeXml h3), unescapeXml_escapeXml,
    jsTrim_eq_self (escapeSafe_escapeXml h4), unescapeXml_escapeXml,
    jsTrim_eq_self (escapeSafe_escapeXml h5), unescapeXml_escapeXml,
    jsTrim_eq_self (escapeSafe_escapeXml h6), unescapeXml_escapeXml,
    jsTrim_eq_self (escapeSafe_escapeXml h7), unescapeXml_escapeXml]
  have hsans' : ((r.sans.map escapeXml).map
      (fun li => unescapeXml (jsTrim li))).filter (fun san => !san.isEmpty) =
      r.sans := by
    rw [List.map_map]
    have hmap : r.sans.map ((fun li => unescapeXml (jsTrim li)) ∘ escapeXml) =
        r.sans := by
      calc r.sans.map ((fun li => unescapeXml (jsTrim li)) ∘ escapeXml)
          = r.sans.map id := List.map_congr_left (fun san hsan => by
            simp only [Function.comp_apply, id_eq]
            rw [jsTrim_eq_self (escapeSafe_escapeXml (hsans san hsan).1),
              unescapeXml_escapeXml])
        _ = r.sans := List.map_id _
    rw [hmap]
    refine List.filter_eq_self.mpr ?_
    intro san hsan
    simp [(hsans san hsan).2]
  rw [hsans']

/-- A concrete record whose text fields contain all five markup
metacharacters. -/
def sampleRow : TableRow :=
  { expiration := "01/10/2026".data,
    cn := ("a<b>&c\"d".data ++ [Char.ofNat 39]),
    sans := ["x&y".data, "z<w".data],
    issuingCA := "Sectigo RSA Domain Validation Secure Server CA".data,
    requestor := "r&d".data,
    location := "lab".data,
    distributionGroup := "dg".data,
    notes := "none".data }

theorem row_codec_round_trip_witness :
    parseTableRow (buildTableRow sampleRow) = some sampleRow :=
  row_codec_round_trip sampleRow (by decide) (by decide) (by decide) (by decide)
    (by decide) (by decide) (by decide) (by decide)

/-- Day number of a proleptic-Gregorian civil date (Hinnant's algorithm),
with `m` the 0-based month index and day 0 = 1970-01-01.  Models the day
component of the ECMAScript time value: two local-midnight `Date`s compare
in the same order as their day numbers. -/
def daysFromCivil (y m d : Int) : Int :=
  let m1 := m + 1
  let y1 := if m1 ≤ 2 then y - 1 else y
  let era := Int.fdiv y1 400
  let yoe := y1 - era * 400
  let mp := Int.emod (m1 + 9) 12
  let doy := Int.fdiv (153 * mp + 2) 5 + (d - 1)
  let doe := yoe * 365 + Int.fdiv yoe 4 - Int.fdiv yoe 100 + doy
  era * 146097 + doe - 719468

/-- ECMAScript `MakeDay`, the semantics of `new Date(year, monthIndex, day)`:
a month index outside 0..11 rolls over into the year, a day outside the
month's range rolls over into adjacent months. -/
def mkJsDate (y monthIndex d : Int) : Int :=
  daysFromCivil (y + Int.fdiv monthIndex 12) (Int.emod monthIndex 12) d

/-- The ECMAScript time-value range (`isNaN(date.getTime())` is the range
check at day granularity: ±100,000,000 days of the epoch). -/
def jsTimeInRange (t : Int) : Bool :=
  -100000000 ≤ t && t ≤ 100000000

def isDigit (c : Char) : Bool := '0' ≤ c && c ≤ '9'

def digitsToNat (ds : Str) : Nat :=
  ds.foldl (fun acc c => acc * 10 + (c.toNat - 48)) 0

/-- Anchored full match of `/^(\d{1,2})sep(\d{1,2})sep(\d{4})$/`, the shape
of the `MM/DD/YYYY`, `DD-MM-YYYY` and `DD/MM/YYYY` rules. -/
def matchNumTriple (sep : Char) (s : Str) : Option (Nat × Nat × Nat) :=
  let r1 := s.takeWhile isDigit
  let s1 := s.drop r1.length
  if r1.length < 1 || 2 < r1.length then none else
  match s1 with
  | c1 :: s2 =>
    if c1 ≠ sep then none else
    let r2 := s2.takeWhile isDigit
    let s3 := s2.drop r2.length
    if r2.length < 1 || 2 < r2.length then none else
    match s3 with
    | c2 :: s4 =>
      if c2 ≠ sep then none else
      let r3 := s4.takeWhile isDigit
      let s5 := s4.drop r3.length
      if r3.length = 4 && s5.isEmpty then
        some (digitsToNat r1, digitsToNat r2, digitsToNat r3)
      else none
    | [] => none
  | [] => none

/-- Anchored full match of `/^(\d{4})\/(\d{1,2})\/(\d{1,2})$/` (rule (e)). -/
def matchYMD (s : Str) : Option (Nat × Nat × Nat) :=
  let r1 := s.takeWhile isDigit
  let s1 := s.drop r1.length
  if r1.length ≠ 4 then none else
  match s1 with
  | '/' :: s2 =>
    let r2 := s2.takeWhile isDigit
    let s3 := s2.drop r2.length
    if r2.length < 1 || 2 < r2.length then none else
    match s3 with
    | '/' :: s4 =>
      let r3 := s4.takeWhile isDigit
      let s5 := s4.drop r3.length
      if (r3.length = 1 || r3.length = 2) && s5.isEmpty then
        some (digitsToNat r1, digitsToNat r2, digitsToNat r3)
      else none
    | _ => none
  | _ => none

def isLeapYear (y : Nat) : Bool :=
  y % 4 = 0 && (y % 100 ≠ 0 || y % 400 = 0)

def daysInMonth (y m : Nat) : Nat :=
  if m = 2 then (if isLeapYear y then 29 else 28)
  else if m = 4 || m = 6 || m = 9 || m = 11 then 30
  else 31

/-- Modelled from the spec: rule (a)'s "general calendar-date parse (covers
ISO-8601 and unambiguous forms)" is the `new Date(string)` builtin, which is
not code of this repository.  It is modelled as the calendar-date form
`YYYY-MM-DD` of the ECMAScript Date Time String Format — the only string
format ECMA-262 requires every engine to accept — with out-of-range month or
day rejected.  Engine-specific lenient fallbacks are modelled as failure;
in particular V8 and SpiderMonkey reject `"13/02/2026"` (month 13), which is
all the claims below rely on.  Timestamps are at day granularity. -/
def jsDateParse (s : Str) : Option Int :=
  match s with
  | [y1, y2, y3, y4, h1, m1, m2, h2, d1, d2] =>
    if h1 = '-' ∧ h2 = '-' ∧ ([y1, y2, y3, y4, m1, m2, d1, d2].all isDigit) then
      let y := digitsToNat [y1, y2, y3, y4]
      let m := digitsToNat [m1, m2]
      let d := digitsToNat [d1, d2]
      if 1 ≤ m ∧ m ≤ 12 ∧ 1 ≤ d ∧ d ≤ daysInMonth y m then
        some (daysFromCivil y ((m : Int) - 1) d)
      else none
    else none
  | _ => none

/-- `parseFlexibleDate` of the source: empty input is falsy and yields null;
otherwise the trimmed text is tried against (a) the general `new Date(string)`
parse, (b) `MM/DD/YYYY`, (c) `DD-MM-YYYY`, (d) `DD/MM/YYYY` guarded by
`day > 12`, (e) `YYYY/MM/DD`, in source order, each regex rule building
`new Date(year, month - 1, day)` and returning it unless its time value is
NaN (the range check). -/
def parseFlexibleDate (dateString : Str) : Option Int :=
  if dateString.isEmpty then none
  else
    let trimmed := jsTrim dateString
    let r0 := jsDateParse trimmed
    if r0.isSome then r0 else
    let r1 := (matchNumTriple '/' trimmed).bind (fun p =>
      let t := mkJsDate p.2.2 ((p.1 : Int) - 1) p.2.1
      if jsTimeInRange t then some t else none)
    if r1.isSome then r1 else
    let r2 := (matchNumTriple '-' trimmed).bind (fun p =>
      let t := mkJsDate p.2.2 ((p.2.1 : Int) - 1) p.1
      if jsTimeInRange t then some t else none)
    if r2.isSome then r2 else
    let r3 := (matchNumTriple '/' trimmed).bind (fun p =>
      if 12 < p.1 then
        let t := mkJsDate p.2.2 ((p.2.1 : Int) - 1) p.1
        if jsTimeInRange t then some t else none
      else none)
    if r3.isSome then r3 else
    (matchYMD trimmed).bind (fun p =>
      let t := mkJsDate p.1 ((p.2.1 : Int) - 1) p.2.2
      if jsTimeInRange t then some t else none)

/-- C3 — the date-parsing order is violated for `"13/02/2026"`: the code's
rule (b) `MM/DD/YYYY` matches first with month = 13, and ECMAScript month
rollover turns `new Date(2026, 12, 2)` into 2027-01-02 instead of the
claimed day = 13, month = 02, year = 2026 (2026-02-13); the `day > 12`
European rule (d) shares rule (b)'s regular expression and is unreachable. -/
theorem parse_13_02_2026_rolls_over :
    parseFlexibleDate ("13/02/2026".data) = some (mkJsDate 2026 12 2) ∧
    mkJsDate 2026 12 2 = daysFromCivil 2027 0 2 ∧
    mkJsDate 2026 12 2 ≠ daysFromCivil 2026 1 13 := by
  refine ⟨by decide, by decide, by decide⟩

/-- The comparator of `sortRowsByDate`: parse both expirations; two invalid
dates compare equal, an invalid date sorts after any valid one, two valid
dates compare by time value. -/
def rowCompare (a b : TableRow) : Int :=
  match parseFlexibleDate a.expiration, parseFlexibleDate b.expiration with
  | none, none => 0
  | none, some _ => 1
  | some _, none => -1
  | some x, some y => x - y

/-- Stable insertion: `x` goes in front of the first element not strictly
smaller than it, so an earlier-input element precedes every tied later one. -/
def insertStable (le : α → α → Bool) (x : α) : List α → List α
  | [] => [x]
  | y :: ys => if le x y then x :: y :: ys else y :: insertStable le x ys

/-- Stable sort by a boolean comparator. -/
def stableSort (le : α → α → Bool) : List α → List α
  | [] => []
  | x :: xs => insertStable le x (stableSort le xs)

/-- `sortRowsByDate` of the source: `rows.sort(comparator)`.
`Array.prototype.sort` is stable (required since ECMAScript 2019) and the
comparator is induced by a total preorder on parsed dates, so every stable
sort returns the same list; it is modelled as stable insertion sort. -/
def sortRowsByDate (rows : List TableRow) : List TableRow :=
  stableSort (fun a b => rowCompare a b ≤ 0) rows

theorem insertStable_perm (le : α → α → Bool) (x : α) :
    ∀ l : List α, (insertStable le x l).Perm (x :: l) := by
  intro l
  induction l with
  | nil => simp [insertStable]
  | cons y ys ih =>
    rw [insertStable]
    by_cases h : le x y = true
    · rw [if_pos h]
    · rw [if_neg h]
      exact (List.Perm.cons y ih).trans (List.Perm.swap x y ys)

theorem stableSort_perm (le : α → α → Bool) :
    ∀ l : List α, (stableSort le l).Perm l := by
  intro l
  induction l with
  | nil => simp [stableSort]
  | cons x xs ih =>
    rw [stableSort]
    exact (insertStable_perm le x (stableSort le xs)).trans (List.Perm.cons x ih)

theorem insertStable_split (le : α → α → Bool) (x : α) :
    ∀ l : List α, ∃ l₁ l₂, l = l₁ ++ l₂ ∧
      insertStable le x l = l₁ ++ x :: l₂ ∧ ∀ y ∈ l₁, le x y = false := by
  intro l
  induction l with
  | nil => exact ⟨[], [], rfl, rfl, by simp⟩
  | cons y ys ih =>
    by_cases h : le x y = true
    · exact ⟨[], y :: ys, rfl, by rw [insertStable, if_pos h]; rfl, by simp⟩
    · rcases ih with ⟨l₁, l₂, hl, hins, hle⟩
      refine ⟨y :: l₁, l₂, by simp [hl], ?_, ?_⟩
      · rw [insertStable, if_neg h, hins]
        rfl
      · intro z hz
        rcases List.mem_cons.mp hz with hz | hz
        · subst hz
          simpa using h
        · exact hle z hz

theorem insertStable_pairwise {le : α → α → Bool}
    (htot : ∀ a b, le a b = true ∨ le b a = true)
    (htrans : ∀ a b c, le a b = true → le b c = true → le a c = true)
    (x : α) : ∀ {l : List α}, l.Pairwise (fun a b => le a b = true) →
      (insertStable le x l).Pairwise (fun a b => le a b = true) := by
  intro l
  induction l with
  | nil => intro _; simp [insertStable]
  | cons y ys ih =>
    intro h
    rw [List.pairwise_cons] at h
    rw [insertStable]
    by_cases hxy : le x y = true
    · rw [if_pos hxy]
      refine List.Pairwise.cons ?_ (List.Pairwise.cons h.1 h.2)
      intro z hz
      rcases List.mem_cons.mp hz with hz | hz
      · subst hz; exact hxy
      · exact htrans x y z hxy (h.1 z hz)
    · rw [if_neg hxy]
      refine List.Pairwise.cons ?_ (ih h.2)
      intro z hz
      have hz' : z = x ∨ z ∈ ys :=
        List.mem_cons.mp ((insertStable_perm le x ys).mem_iff.mp hz)
      rcases hz' with hz' | hz'
      · rcases htot x y with h1 | h1
        · exact absurd h1 hxy
        · rw [hz']
          exact h1
      · exact h.1 z hz'

theorem stableSort_pairwise {le : α → α → Bool}
    (htot : ∀ a b, le a b = true ∨ le b a = true)
    (htrans : ∀ a b c, le a b = true → le b c = true → le a c = true) :
    ∀ l : List α, (stableSort le l).Pairwise (fun a b => le a b = true) := by
  intro l
  induction l with
  | nil => simp [stableSort]
  | cons x xs ih =>
    rw [stableSort]
    exact insertStable_pairwise htot htrans x ih

theorem sortRowsByDate_filter_none (rows : List TableRow) :
    (sortRowsByDate rows).filter
        (fun r => (parseFlexibleDate r.expiration).isNone) =
      rows.filter (fun r => (parseFlexibleDate r.expiration).isNone) := by
  unfold sortRowsByDate
  induction rows with
  | nil => rfl
  | cons x xs ih =>
    rw [stableSort]
    rcases insertStable_split (fun a b => decide (rowCompare a b ≤ 0)) x
      (stableSort (fun a b => decide (rowCompare a b ≤ 0)) xs) with
      ⟨l₁, l₂, hl, hins, hle⟩
    rw [hins, List.filter_append, List.filter_cons]
    cases hx : parseFlexibleDate x.expiration with
    | some t =>
      simp only [hx, Option.isNone_some, Bool.false_eq_true, if_neg, ite_false]
      rw [← List.filter_append, ← hl, ih, List.filter_cons]
      simp [hx]
    | none =>
      have h₁ : List.filter (fun r => (parseFlexibleDate r.expiration).isNone) l₁ = [] := by
        rw [List.filter_eq_nil_iff]
        intro y hy
        have hley := hle y hy
        cases hy2 : parseFlexibleDate y.expiration with
        | some _ => simp [hy2]
        | none =>
          exfalso
          rw [show rowCompare x y = 0 by unfold rowCompare; rw [hx, hy2]] at hley
          simp at hley
      rw [h₁]
      simp only [hx, Option.isNone_none, ite_true, if_pos]
      rw [List.nil_append]
      have h₂ : List.filter (fun r => (parseFlexibleDate r.expiration).isNone) l₂ =
          List.filter (fun r => (parseFlexibleDate r.expiration).isNone) xs := by
        rw [← List.nil_append (List.filter _ l₂), ← h₁, ← List.filter_append, ← hl, ih]
      rw [h₂, List.filter_cons]
      simp [hx]

/-- C4 — Sort correctness: `sortRowsByDate` permutes its input into a
sequence non-decreasing in parsed date over the entries that parse, places
every entry that fails to parse after all entries that parse, and keeps the
failing entries in their original relative order. -/
theorem sort_rows_by_date_correct : ∀ rows : List TableRow,
    (sortRowsByDate rows).Perm rows ∧
    (sortRowsByDate rows).Pairwise (fun a b => ∀ x y,
      parseFlexibleDate a.expiration = some x →
      parseFlexibleDate b.expiration = some y → x ≤ y) ∧
    (sortRowsByDate rows).Pairwise (fun a b =>
      parseFlexibleDate a.expiration = none →
      parseFlexibleDate b.expiration = none) ∧
    (sortRowsByDate rows).filter
        (fun r => (parseFlexibleDate r.expiration).isNone) =
      rows.filter (fun r => (parseFlexibleDate r.expiration).isNone) := by
  intro rows
  have htot : ∀ a b : TableRow, decide (rowCompare a b ≤ 0) = true ∨
      decide (rowCompare b a ≤ 0) = true := by
    intro a b
    simp only [decide_eq_true_eq]
    unfold rowCompare
    cases parseFlexibleDate a.expiration <;>
      cases parseFlexibleDate b.expiration <;> simp <;> omega
  have htrans : ∀ a b c : TableRow, decide (rowCompare a b ≤ 0) = true →
      decide (rowCompare b c ≤ 0) = true → decide (rowCompare a c ≤ 0) = true := by
    intro a b c
    simp only [decide_eq_true_eq]
    unfold rowCompare
    cases parseFlexibleDate a.expiration <;>
      cases parseFlexibleDate b.expiration <;>
      cases parseFlexibleDate c.expiration <;> simp <;> omega
  have hpw := stableSort_pairwise htot htrans rows
  refine ⟨stableSort_perm _ rows, ?_, ?_, sortRowsByDate_filter_none rows⟩
  · unfold sortRowsByDate
    refine hpw.imp ?_
    intro a b hab x y hx hy
    simp only [decide_eq_true_eq] at hab
    unfold rowCompare at hab
    rw [hx, hy] at hab
    simp at hab
    omega
  · unfold sortRowsByDate
    refine hpw.imp ?_
    intro a b hab ha
    simp only [decide_eq_true_eq] at hab
    unfold rowCompare at hab
    rw [ha] at hab
    cases hyb : parseFlexibleDate b.expiration with
    | none => rfl
    | some t =>
      rw [hyb] at hab
      simp at hab

/-- `String.prototype.toLowerCase`, on the ASCII range this engine's
triggers live in. -/
def toLowerStr (s : Str) : Str := s.map asciiLower

/-- `String.prototype.includes`: `pat` occurs somewhere in `s`. -/
def strIncludes (s pat : Str) : Bool :=
  match s with
  | [] => pat.isEmpty
  | c :: t => pat.isPrefixOf (c :: t) || strIncludes t pat

/-- `getMarkerSectionForCA` of the source: lower-case the issuing CA and
test the substring triggers in order, defaulting to `LEGACY`. -/
def getMarkerSectionForCA (issuingCA : Str) : Option Str :=
  if strIncludes (toLowerStr issuingCA) ("sectigo".data) then
    some ("SECTIGO".data)
  else if strIncludes (toLowerStr issuingCA) ("tivo".data) ||
      strIncludes (toLowerStr issuingCA) ("pki.tivo.com".data) then
    some ("PKI-TIVO-COM".data)
  else if strIncludes (toLowerStr issuingCA) ("digicert".data) ||
      strIncludes (toLowerStr issuingCA) ("comodo".data) ||
      strIncludes (toLowerStr issuingCA) ("godaddy".data) ||
      strIncludes (toLowerStr issuingCA) ("letsencrypt".data) then
    some ("THIRD-PARTY".data)
  else if strIncludes (toLowerStr issuingCA) ("sdv".data) then
    some ("SDV".data)
  else
    some ("LEGACY".data)

/-- The spec's description of the classifier: an ordered list of
(trigger-substring → bucket) rules, first match wins, fixed default. -/
def classifyRules : List (Str × Str) :=
  [("sectigo".data, "SECTIGO".data),
   ("tivo".data, "PKI-TIVO-COM".data),
   ("pki.tivo.com".data, "PKI-TIVO-COM".data),
   ("digicert".data, "THIRD-PARTY".data),
   ("comodo".data, "THIRD-PARTY".data),
   ("godaddy".data, "THIRD-PARTY".data),
   ("letsencrypt".data, "THIRD-PARTY".data),
   ("sdv".data, "SDV".data)]

/-- First matching rule's bucket, or the default bucket. -/
def classifySpec (categoryText : Str) : Str :=
  match classifyRules.find?
      (fun rule => strIncludes (toLowerStr categoryText) rule.1) with
  | some rule => rule.2
  | none => "LEGACY".data

/-- C7 — Category classification: the classifier lower-cases its input,
returns the bucket of the first matching substring rule of the ordered rule
list with the fixed `LEGACY` default, and sends the Sectigo CA name to
`SECTIGO`. -/
theorem classifier_first_match :
    (∀ s : Str, getMarkerSectionForCA s = some (classifySpec s)) ∧
    getMarkerSectionForCA
        ("Sectigo RSA Domain Validation Secure Server CA".data) =
      some ("SECTIGO".data) := by
  constructor
  · intro s
    unfold getMarkerSectionForCA classifySpec classifyRules
    by_cases h1 : strIncludes (toLowerStr s) ("sectigo".data) = true
    · simp [List.find?_cons, h1]
    · 
      by_cases h2 : strIncludes (toLowerStr s) ("tivo".data) = true
      · simp [List.find?_cons, h1, h2]
      · 
        by_cases h3 : strIncludes (toLowerStr s) ("pki.tivo.com".data) = true
        · simp [List.find?_cons, h1, h2, h3]
        · 
          by_cases h4 : strIncludes (toLowerStr s) ("digicert".data) = true
          · simp [List.find?_cons, h1, h2, h3, h4]
          · 
            by_cases h5 : strIncludes (toLowerStr s) ("comodo".data) = true
            · simp [List.find?_cons, h1, h2, h3, h4, h5]
            · 
              by_cases h6 : strIncludes (toLowerStr s) ("godaddy".data) = true
              · simp [List.find?_cons, h1, h2, h3, h4, h5, h6]
              · 
                by_cases h7 : strIncludes (toLowerStr s) ("letsencrypt".data) = true
                · simp [List.find?_cons, h1, h2, h3, h4, h5, h6, h7]
                · 
                  by_cases h8 : strIncludes (toLowerStr s) ("sdv".data) = true
                  · simp [List.find?_cons, h1, h2, h3, h4, h5, h6, h7, h8]
                  · simp [List.find?_cons, h1, h2, h3, h4, h5, h6, h7, h8]
  · decide

/-- The character class `[A-Z0-9-]` under the `/i` flag. -/
def isClassChar (c : Char) : Bool :=
  ('A' ≤ c && c ≤ 'Z') || ('a' ≤ c && c ≤ 'z') || ('0' ≤ c && c ≤ '9') || c == '-'

/-- Case-insensitive equality of two strings of the same length. -/
def ciEqStr : Str → Str → Bool
  | [], [] => true
  | a :: as, b :: bs => lowerEq a b && ciEqStr as bs
  | _, _ => false

/-- `<ac:structured-macro\s+ac:name="htmlcomment"[^>]*>` matched at the head
of the input; returns the rest.  Each greedy piece is deterministic: `\s+`
is followed by a non-whitespace literal and `[^>]*` by `>`. -/
def matchMacroOpenAt (s : Str) : Option Str :=
  (stripLitCI ("<ac:structured-macro".data) s).bind fun s1 =>
    match s1 with
    | [] => none
    | c :: t =>
      if jsWs c then
        (stripLitCI ("ac:name=\"htmlcomment\"".data)
            ((c :: t).dropWhile jsWs)).bind fun s3 =>
          dropNotGt s3
      else none

/-- `<ac:rich-text-body>\s*<p>\s*([A-Z0-9-]+)-START\s*</p>\s*
`</ac:rich-text-body>\s*</ac:structured-macro>` matched at the head of the
input: the greedy class run must end in `-START` (case-insensitively) with a
nonempty capture, the only split the surrounding literals admit.  Returns
the captured marker name and the rest. -/
def matchStartBodyAt (s : Str) : Option (Str × Str) :=
  (stripLitCI ("<ac:rich-text-body>".data) s).bind fun s1 =>
  (stripLitCI ("<p>".data) (s1.dropWhile jsWs)).bind fun s3 =>
  let s4 := s3.dropWhile jsWs
  let run := s4.takeWhile isClassChar
  let s5 := s4.drop run.length
  if run.length < 7 then none
  else if ciEqStr (run.drop (run.length - 6)) ("-START".data) then
    (stripLitCI ("</p>".data) (s5.dropWhile jsWs)).bind fun s7 =>
    (stripLitCI ("</ac:rich-text-body>".data) (s7.dropWhile jsWs)).bind fun s9 =>
    (stripLitCI ("</ac:structured-macro>".data) (s9.dropWhile jsWs)).map fun s11 =>
    (run.take (run.length - 6), s11)
  else none

/-- The analogous end-marker body `<p>\s*NAME-END\s*</p>…` for a fixed,
interpolated marker name. -/
def matchEndBodyAt (name : Str) (s : Str) : Option Str :=
  (stripLitCI ("<ac:rich-text-body>".data) s).bind fun s1 =>
  (stripLitCI ("<p>".data) (s1.dropWhile jsWs)).bind fun s3 =>
  (stripLitCI (name ++ "-END".data) (s3.dropWhile jsWs)).bind fun s5 =>
  (stripLitCI ("</p>".data) (s5.dropWhile jsWs)).bind fun s7 =>
  (stripLitCI ("</ac:rich-text-body>".data) (s7.dropWhile jsWs)).bind fun s9 =>
  stripLitCI ("</ac:structured-macro>".data) (s9.dropWhile jsWs)

/-- The lazy `[\s\S]*?` between the opening tag and the rich-text body: try
the continuation at every offset, nearest first. -/
def lazyScan (K : Str → Option β) : Str → Option β
  | [] => K []
  | c :: t =>
    match K (c :: t) with
    | some r => some r
    | none => lazyScan K t

/-- A whole-start-marker match anchored at the head of the input:
`(markerName, rest)`. -/
def matchMacroStartAt (s : Str) : Option (Str × Str) :=
  (matchMacroOpenAt s).bind fun s4 => lazyScan matchStartBodyAt s4

/-- A whole-end-marker match for `name` anchored at the head: the rest. -/
def matchMacroEndAt (name : Str) (s : Str) : Option Str :=
  (matchMacroOpenAt s).bind fun s4 => lazyScan (matchEndBodyAt name) s4

/-- Scan for the first offset at which `f` matches (regex `exec`). -/
def scanFor (f : Str → Option β) : Str → Option (Nat × β)
  | [] => (f []).map (fun r => (0, r))
  | c :: t =>
    match f (c :: t) with
    | some r => some (0, r)
    | none => (scanFor f t).map (fun r => (r.1 + 1, r.2))

theorem stripLitCI_le {pat s r : Str} (h : stripLitCI pat s = some r) :
    r.length ≤ s.length := by
  have := stripLitCI_length h
  omega

theorem length_dropWhile_le (p : Char → Bool) (l : Str) :
    (l.dropWhile p).length ≤ l.length := by
  induction l with
  | nil => simp
  | cons c t ih =>
    rw [List.dropWhile_cons]
    by_cases h : p c = true
    · rw [if_pos h]; simp; omega
    · rw [if_neg h]

theorem matchMacroOpenAt_lt {s r : Str} (h : matchMacroOpenAt s = some r) :
    r.length < s.length := by
  unfold matchMacroOpenAt at h
  cases h1 : stripLitCI ("<ac:structured-macro".data) s with
  | none => rw [h1] at h; cases h
  | some s1 =>
    rw [h1] at h
    have hl1 := stripLitCI_length h1
    simp only [Option.some_bind] at h
    cases s1 with
    | nil => simp at h
    | cons c t =>
      dsimp only at h
      by_cases hc : jsWs c = true
      · rw [if_pos hc] at h
        cases h3 : stripLitCI ("ac:name=\"htmlcomment\"".data)
            ((c :: t).dropWhile jsWs) with
        | none => rw [h3] at h; cases h
        | some s3 =>
          rw [h3] at h
          simp only [Option.some_bind] at h
          have hd : ((c :: t).dropWhile jsWs).length ≤ (c :: t).length :=
            length_dropWhile_le _ _
          have hl3 := stripLitCI_le h3
          have hl4 := dropNotGt_length h
          rw [show ("<ac:structured-macro".data : Str).length = 20 from rfl] at hl1
          omega
      · rw [if_neg hc] at h
        cases h

theorem matchStartBodyAt_le {s : Str} {pr : Str × Str}
    (h : matchStartBodyAt s = some pr) : pr.2.length ≤ s.length := by
  unfold matchStartBodyAt at h
  cases h1 : stripLitCI ("<ac:rich-text-body>".data) s with
  | none => rw [h1] at h; cases h
  | some s1 =>
    rw [h1] at h
    simp only [Option.some_bind] at h
    cases h3 : stripLitCI ("<p>".data) (s1.dropWhile jsWs) with
    | none => rw [h3] at h; cases h
    | some s3 =>
      rw [h3] at h
      simp only [Option.some_bind] at h
      by_cases hrun : ((s3.dropWhile jsWs).takeWhile isClassChar).length < 7
      · rw [if_pos hrun] at h; cases h
      · rw [if_neg hrun] at h
        by_cases hci : ciEqStr
            (((s3.dropWhile jsWs).takeWhile isClassChar).drop
              (((s3.dropWhile jsWs).takeWhile isClassChar).length - 6))
            ("-START".data) = true
        · rw [if_pos hci] at h
          cases h7 : stripLitCI ("</p>".data)
              (((s3.dropWhile jsWs).drop
                ((s3.dropWhile jsWs).takeWhile isClassChar).length).dropWhile jsWs) with
          | none => rw [h7] at h; cases h
          | some s7 =>
            rw [h7] at h
            simp only [Option.some_bind] at h
            cases h9 : stripLitCI ("</ac:rich-text-body>".data)
                (s7.dropWhile jsWs) with
            | none => rw [h9] at h; cases h
            | some s9 =>
              rw [h9] at h
              simp only [Option.some_bind] at h
              cases h11 : stripLitCI ("</ac:structured-macro>".data)
                  (s9.dropWhile jsWs) with
              | none => rw [h11] at h; cases h
              | some s11 =>
                rw [h11] at h
                simp only [Option.map_some'] at h
                have e1 := stripLitCI_le h1
                have e3 := stripLitCI_le h3
                have e7 := stripLitCI_le h7
                have e9 := stripLitCI_le h9
                have e11 := stripLitCI_le h11
                have d1 := length_dropWhile_le jsWs s1
                have d3 := length_dropWhile_le jsWs s3
                have d5a := length_dropWhile_le jsWs
                  ((s3.dropWhile jsWs).drop
                    ((s3.dropWhile jsWs).takeWhile isClassChar).length)
                have d5b : ((s3.dropWhile jsWs).drop
                    ((s3.dropWhile jsWs).takeWhile isClassChar).length).length ≤
                    (s3.dropWhile jsWs).length := by simp
                have d7 := length_dropWhile_le jsWs s7
                have d9 := length_dropWhile_le jsWs s9
                have hpr : pr.2 = s11 := by
                  injection h with h2
                  rw [← h2]
                rw [hpr]
                omega
        · rw [if_neg hci] at h
          cases h

theorem lazyScan_snd_le {K : Str → Option (Str × Str)}
    (hK : ∀ {t : Str} {pr : Str × Str}, K t = some pr → pr.2.length ≤ t.length) :
    ∀ {s : Str} {pr : Str × Str}, lazyScan K s = some pr → pr.2.length ≤ s.length := by
  intro s
  induction s with
  | nil => intro pr h; exact hK h
  | cons c t ih =>
    intro pr h
    rw [lazyScan] at h
    cases hk : K (c :: t) with
    | some r => rw [hk] at h; cases h; exact hK hk
    | none =>
      rw [hk] at h
      dsimp only at h
      have := ih h
      simp only [List.length_cons]
      omega

theorem matchMacroStartAt_lt {s : Str} {pr : Str × Str}
    (h : matchMacroStartAt s = some pr) : pr.2.length < s.length := by
  unfold matchMacroStartAt at h
  cases h1 : matchMacroOpenAt s with
  | none => rw [h1] at h; cases h
  | some s4 =>
    rw [h1] at h
    simp only [Option.some_bind] at h
    have h2 := lazyScan_snd_le (fun {t pr} ht => matchStartBodyAt_le ht) h
    have h3 := matchMacroOpenAt_lt h1
    omega

theorem scanFor_bound {f : Str → Option β} {g : β → Nat}
    (hf : ∀ {t : Str} {r : β}, f t = some r → g r < t.length) :
    ∀ {s : Str} {p : Nat × β}, scanFor f s = some p → p.1 + g p.2 < s.length := by
  intro s
  induction s with
  | nil =>
    intro p h
    rw [scanFor] at h
    cases hf0 : f [] with
    | none => rw [hf0] at h; cases h
    | some r => exact absurd (hf hf0) (by simp)
  | cons c t ih =>
    intro p h
    rw [scanFor] at h
    cases hf0 : f (c :: t) with
    | some r =>
      rw [hf0] at h
      cases h
      simpa using hf hf0
    | none =>
      rw [hf0] at h
      dsimp only at h
      cases hrec : scanFor f t with
      | none => rw [hrec] at h; cases h
      | some q =>
        rw [hrec] at h
        simp only [Option.map_some'] at h
        have := ih hrec
        cases h
        simp only [List.length_cons]
        omega

/-- The record pushed for each matched marker region (`interface
MarkerSection`): marker name, the full start/end marker texts, and the
absolute indices of the region and of the content between the markers. -/
structure MarkerSection where
  markerName : Str
  startMarker : Str
  endMarker : Str
  startIndex : Nat
  endIndex : Nat
  contentStartIndex : Nat
  contentEndIndex : Nat
deriving DecidableEq, Repr

/-- The `while ((match = macroMarkerPattern.exec(content)) !== null)` loop of
`findMarkerSections`, scanning from the global regex's `lastIndex` (`pos`).
Each found start marker advances `lastIndex` past itself; a start marker with
no matching end marker is skipped (`continue`) without pushing a section.
The fuel argument only bounds the iteration count: every iteration consumes
at least one character, so `content.length + 1` steps always suffice
(`findMarkerSectionsAux_fuel`). -/
def findMarkerSectionsAux (content : Str) : Nat → Nat → List MarkerSection
  | 0, _ => []
  | fuel + 1, pos =>
    match scanFor matchMacroStartAt (content.drop pos) with
    | none => []
    | some (off, name, rest) =>
      match scanFor (matchMacroEndAt name) rest with
      | none => findMarkerSectionsAux content fuel (content.length - rest.length)
      | some (eoff, erest) =>
        { markerName := name
          startMarker := (content.drop (pos + off)).take
            (content.length - rest.length - (pos + off))
          endMarker := (content.drop (content.length - rest.length + eoff)).take
            (rest.length - eoff - erest.length)
          startIndex := pos + off
          endIndex := content.length - rest.length + eoff +
            (rest.length - eoff - erest.length)
          contentStartIndex := content.length - rest.length
          contentEndIndex := content.length - rest.length + eoff } ::
        findMarkerSectionsAux content fuel (content.length - rest.length)

/-- `findMarkerSections(content)`: all structured-macro marker sections, in
order of appearance. -/
def findMarkerSections (content : Str) : List MarkerSection :=
  findMarkerSectionsAux content (content.length + 1) 0

theorem findMarkerSectionsAux_fuel {content : Str} :
    ∀ {fuel fuel' pos : Nat}, content.length - pos < fuel →
      content.length - pos < fuel' →
      findMarkerSectionsAux content fuel pos = findMarkerSectionsAux content fuel' pos := by
  intro fuel
  induction fuel with
  | zero => intro fuel' pos hf hf'; omega
  | succ a ih =>
    intro fuel' pos hf hf'
    cases fuel' with
    | zero => omega
    | succ b =>
      rw [findMarkerSectionsAux, findMarkerSectionsAux]
      cases hs : scanFor matchMacroStartAt (content.drop pos) with
      | none => rfl
      | some p =>
        obtain ⟨off, name, rest⟩ := p
        have hb := scanFor_bound (fun {t r} ht => matchMacroStartAt_lt ht) hs
        simp only [List.length_drop] at hb
        have hnew : content.length - (content.length - rest.length) < a := by omega
        have hnew' : content.length - (content.length - rest.length) < b := by omega
        dsimp only
        cases he : scanFor (matchMacroEndAt name) rest with
        | none => dsimp only; exact ih hnew hnew'
        | some q =>
          obtain ⟨eoff, erest⟩ := q
          dsimp only
          exact congrArg (List.cons _) (ih hnew hnew')

/-- ECMAScript `slice` index resolution: negative indices count from the
end, then clamp to `[0, len]`. -/
def jsIdx (len : Nat) (x : Int) : Nat :=
  if x < 0 then (len + x).toNat else min x.toNat len

/-- `s.slice(a, b)`. -/
def jsSlice (s : Str) (a b : Int) : Str :=
  (s.take (jsIdx s.length b)).drop (jsIdx s.length a)

/-- `s.slice(a)`. -/
def jsSliceFrom (s : Str) (a : Int) : Str :=
  s.drop (jsIdx s.length a)

/-- First index at which `pat` occurs in `s`, if any. -/
def idxOf (s pat : Str) : Option Nat :=
  (List.range (s.length + 1)).find? (fun k => pat.isPrefixOf (s.drop k))

/-- `s.indexOf(pat)`: the first occurrence, or `-1`. -/
def jsIndexOf (s pat : Str) : Int :=
  match idxOf s pat with
  | none => -1
  | some k => (k : Int)

/-- `s.lastIndexOf(pat)`: the last index at which `pat` occurs, if any
(the `-1` case is handled at the call site). -/
def lastIdxOf (s pat : Str) : Option Nat :=
  ((List.range (s.length + 1)).filter (fun k => pat.isPrefixOf (s.drop k))).getLast?

/-- `/<table[\s\S]*?<\/table>/i` anchored at the head of the input: the
length of the matched text. -/
def matchTableAt (t : Str) : Option Nat :=
  (stripLitCI ("<table".data) t).bind fun t1 =>
  (takeUntilLitCI ("</table>".data) t1).map fun pr => t.length - pr.2.length

/-- `sectionContent.match(tablePattern)`: the first (leftmost) match of the
table pattern, as the matched text `tableMatch[0]`. -/
def findTableMatch (s : Str) : Option Str :=
  (scanFor matchTableAt s).map fun pr => (s.drop pr.1).take pr.2

/-- `Array.prototype.join(sep)`. -/
def joinSep (sep : Str) : List Str → Str
  | [] => []
  | [x] => x
  | x :: y :: xs => x ++ sep ++ joinSep sep (y :: xs)

/-- A JavaScript `Map<string, TableRow[]>` grown by
`map.get(k)!.push(row)` (with insertion-ordered keys), as an association
list: appending to an existing key's group preserves key order, a new key
goes to the back. -/
def assocAppend (k : Str) (v : TableRow) :
    List (Str × List TableRow) → List (Str × List TableRow)
  | [] => [(k, [v])]
  | (k', vs) :: rest =>
    if k' = k then (k', vs ++ [v]) :: rest else (k', vs) :: assocAppend k v rest

/-- The grouping loop of `addRowsWithCAGrouping`: each row is routed to the
bucket named by `getMarkerSectionForCA(row.issuingCA)`; a `null` bucket name
is skipped. -/
def groupByMarker (rows : List TableRow) : List (Str × List TableRow) :=
  rows.foldl (fun m row =>
    match getMarkerSectionForCA row.issuingCA with
    | none => m
    | some name => assocAppend name row m) []

/-- `map.get(name)`. -/
def lookupGroup (m : List (Str × List TableRow)) (name : Str) :
    Option (List TableRow) :=
  (m.find? (fun p => p.1 == name)).map (fun p => p.2)

/-- One iteration of the `for (const markerSection of markerSections)` loop
of `addRowsWithCAGrouping`, acting on the state `(result, offset)`: sections
with no new rows, no table, or no `</tbody>` are skipped; otherwise the new
rows' HTML plus a newline is spliced in before the table's last `</tbody>`
and the offset grows by the inserted length. -/
def mergeStep (groups : List (Str × List TableRow)) (st : Str × Nat)
    (sec : MarkerSection) : Str × Nat :=
  match lookupGroup groups sec.markerName with
  | none => st
  | some rows =>
    if rows.isEmpty then st
    else
      match findTableMatch
          (jsSlice st.1 ((sec.contentStartIndex + st.2 : Nat) : Int)
            ((sec.contentEndIndex + st.2 : Nat) : Int)) with
      | none => st
      | some tableHtml =>
        match lastIdxOf tableHtml ("</tbody>".data) with
        | none => st
        | some tbodyCloseIdx =>
          ((jsSlice st.1 0
              (((sec.contentStartIndex + st.2 : Nat) : Int) +
                jsIndexOf
                  (jsSlice st.1 ((sec.contentStartIndex + st.2 : Nat) : Int)
                    ((sec.contentEndIndex + st.2 : Nat) : Int)) tableHtml +
                (tbodyCloseIdx : Int))) ++
            joinSep ("\n".data) (rows.map buildTableRow) ++ "\n".data ++
            jsSliceFrom st.1
              (((sec.contentStartIndex + st.2 : Nat) : Int) +
                jsIndexOf
                  (jsSlice st.1 ((sec.contentStartIndex + st.2 : Nat) : Int)
                    ((sec.contentEndIndex + st.2 : Nat) : Int)) tableHtml +
                (tbodyCloseIdx : Int)),
            st.2 + ((joinSep ("\n".data) (rows.map buildTableRow)).length + 1))

/-- A UTF-16 code unit sequence of one scalar value (JS strings compare by
code units). -/
def utf16Units (c : Char) : List Nat :=
  if c.toNat < 0x10000 then [c.toNat]
  else [0xD800 + (c.toNat - 0x10000) / 0x400, 0xDC00 + (c.toNat - 0x10000) % 0x400]

def utf16Key (s : Str) : List Nat := (s.map utf16Units).flatten

/-- Lexicographic strict order on code unit sequences. -/
def natListLt : List Nat → List Nat → Bool
  | [], [] => false
  | [], _ :: _ => true
  | _ :: _, [] => false
  | a :: as, b :: bs => if a < b then true else if b < a then false else natListLt as bs

/-- The default `Array.prototype.sort()` string order, as a total preorder. -/
def strLe (a b : Str) : Bool := !natListLt (utf16Key b) (utf16Key a)

/-- The grouping loop of `addRowsWithoutMarkers`: rows grouped by their raw
`issuingCA`, insertion-ordered. -/
def groupByCA (rows : List TableRow) : List (Str × List TableRow) :=
  rows.foldl (fun m row => assocAppend row.issuingCA row m) []

/-- `buildCATable(caName, rows, headingLevel)`: a heading with the escaped
CA name followed by a fresh table whose body holds the date-sorted rows. -/
def buildCATable (caName : Str) (rows : List TableRow) (headingLevel : Nat) : Str :=
  "<h".data ++ (Nat.repr headingLevel).data ++ ">".data ++ escapeXml caName ++
  "</h".data ++ (Nat.repr headingLevel).data ++
  (">\n<table style=\"width: 100%; table-layout: auto;\">\n<tbody>\n<tr>\n" ++
   "<th style=\"min-width: 90px;\">Expiration</th>\n" ++
   "<th style=\"min-width: 200px; max-width: 300px;\">CN</th>\n" ++
   "<th style=\"min-width: 250px; max-width: 350px;\">SANs</th>\n" ++
   "<th style=\"min-width: 150px; max-width: 200px;\">Issuing CA</th>\n" ++
   "<th style=\"min-width: 120px; max-width: 180px;\">Requestor</th>\n" ++
   "<th style=\"min-width: 120px; max-width: 180px;\">Location</th>\n" ++
   "<th style=\"min-width: 150px; max-width: 200px;\">Distribution Group</th>\n" ++
   "<th style=\"min-width: 200px; max-width: 300px;\">Notes</th>\n</tr>\n").data ++
  joinSep ("\n".data) ((sortRowsByDate rows).map buildTableRow) ++
  "\n</tbody>\n</table>".data

/-- The serialized new sections of the fallback path: new rows grouped by
raw CA name, CA names sorted, one `buildCATable` fragment per CA at heading
level 3, joined by blank lines. -/
def fallbackSections (newRows : List TableRow) : Str :=
  joinSep ("\n\n".data)
    ((stableSort strLe ((groupByCA newRows).map (fun p => p.1))).map
      (fun ca => buildCATable ca ((lookupGroup (groupByCA newRows) ca).getD []) 3))

/-- `addRowsWithoutMarkers(existingContent, newRows)`: append-only fallback
used when no marker sections exist. -/
def addRowsWithoutMarkers (existingContent : Str) (newRows : List TableRow) : Str :=
  if !(jsTrim existingContent).isEmpty then
    jsTrim existingContent ++ "\n\n".data ++ fallbackSections newRows
  else fallbackSections newRows

/-- `addRowsWithCAGrouping(existingContent, newRows)`: the merge entry
point.  With no marker sections it falls back to `addRowsWithoutMarkers`;
otherwise it folds `mergeStep` over the sections in order of appearance,
starting from the unmodified document and offset 0. -/
def addRowsWithCAGrouping (existingContent : Str) (newRows : List TableRow) : Str :=
  if (findMarkerSections existingContent).isEmpty then
    addRowsWithoutMarkers existingContent newRows
  else
    ((findMarkerSections existingContent).foldl
      (mergeStep (groupByMarker newRows)) (existingContent, 0)).1

theorem splice_eq (s : Str) (p : Int) (a : Str) :
    jsSlice s 0 p ++ a ++ "\n".data ++ jsSliceFrom s p =
      s.take (jsIdx s.length p) ++ (a ++ "\n".data) ++ s.drop (jsIdx s.length p) := by
  have h0 : jsIdx s.length 0 = 0 := by simp [jsIdx]
  rw [jsSlice, jsSliceFrom, h0, List.drop_zero]
  simp [List.append_assoc]

theorem sublist_splice (s : Str) (k : Nat) (ins : Str) :
    List.Sublist s (s.take k ++ ins ++ s.drop k) := by
  conv_lhs => rw [← List.take_append_drop k s]
  rw [List.append_assoc]
  exact List.Sublist.append_left (List.sublist_append_right ins (s.drop k)) (s.take k)

theorem splice_length (s : Str) (k : Nat) (ins : Str) :
    (s.take k ++ ins ++ s.drop k).length = s.length + ins.length := by
  have h := congrArg List.length (List.take_append_drop k s)
  simp only [List.length_append] at h ⊢
  omega

theorem mergeStep_frame (g : List (Str × List TableRow)) (st : Str × Nat)
    (sec : MarkerSection) :
    mergeStep g st sec = st ∨
      ∃ (k : Nat) (ins : Str),
        (mergeStep g st sec).1 = st.1.take k ++ ins ++ st.1.drop k ∧
        (mergeStep g st sec).2 = st.2 + ins.length := by
  unfold mergeStep
  split
  · exact Or.inl rfl
  · split
    · exact Or.inl rfl
    · split
      · exact Or.inl rfl
      · split
        · exact Or.inl rfl
        · exact Or.inr ⟨_, _, splice_eq st.1 _ _, by simp⟩

theorem foldl_mergeStep_frame (g : List (Str × List TableRow)) (D : Str) :
    ∀ (secs : List MarkerSection) (st : Str × Nat),
      List.Sublist D st.1 → st.1.length = D.length + st.2 →
      List.Sublist D ((List.foldl (mergeStep g) st secs).1) ∧
      ((List.foldl (mergeStep g) st secs).1).length =
        D.length + (List.foldl (mergeStep g) st secs).2 := by
  intro secs
  induction secs with
  | nil => intro st hsub hlen; exact ⟨hsub, hlen⟩
  | cons sec rest ih =>
    intro st hsub hlen
    rw [List.foldl_cons]
    rcases mergeStep_frame g st sec with heq | ⟨k, ins, h1, h2⟩
    · rw [heq]; exact ih st hsub hlen
    · refine ih (mergeStep g st sec) ?_ ?_
      · rw [h1]; exact hsub.trans (sublist_splice st.1 k ins)
      · rw [h1, h2, splice_length, hlen]; omega

theorem foldl_mergeStep_nil :
    ∀ (secs : List MarkerSection) (st : Str × Nat),
      List.foldl (mergeStep []) st secs = st := by
  intro secs
  induction secs with
  | nil => intro st; rfl
  | cons sec rest ih =>
    intro st
    rw [List.foldl_cons, show mergeStep [] st sec = st from rfl]
    exact ih st

/-- A document holding one structured-macro marker pair (SECTIGO) with a
short content region between the markers. -/
def macroDoc : Str :=
  ("<p>intro</p><ac:structured-macro ac:name=\"htmlcomment\" ac:schema-version=\"1\">" ++
   "<ac:rich-text-body><p>SECTIGO-START</p></ac:rich-text-body></ac:structured-macro>" ++
   "MID<ac:structured-macro ac:name=\"htmlcomment\"><ac:rich-text-body>" ++
   "<p>SECTIGO-END</p></ac:rich-text-body></ac:structured-macro><p>tail</p>").data

/-- C10: on a document with at least one marker section, merging an empty
batch returns the document byte-for-byte unchanged (every section is skipped
because it has no new rows); on the fallback path the identity fails: an
empty batch still yields the trimmed document followed by the blank-line
separator (the serialized sections of an empty batch are empty).  The third
conjunct instantiates the identity on a concrete marker document and the
fourth shows a markerless document is altered. -/
theorem empty_batch_identity :
    (∀ D : Str, findMarkerSections D ≠ [] → addRowsWithCAGrouping D [] = D) ∧
    (∀ D : Str, findMarkerSections D = [] → jsTrim D ≠ [] →
      addRowsWithCAGrouping D [] = jsTrim D ++ "\n\n".data) ∧
    addRowsWithCAGrouping macroDoc [] = macroDoc ∧
    addRowsWithCAGrouping ("<p>x</p>".data) [] ≠ "<p>x</p>".data := by
  have h1 : ∀ D : Str, findMarkerSections D ≠ [] → addRowsWithCAGrouping D [] = D := by
    intro D hD
    unfold addRowsWithCAGrouping
    have hne : (findMarkerSections D).isEmpty = false := by
      cases hfm : findMarkerSections D with
      | nil => exact absurd hfm hD
      | cons a b => rfl
    rw [if_neg (by rw [hne]; exact Bool.false_ne_true)]
    rw [show groupByMarker [] = [] from rfl, foldl_mergeStep_nil]
  refine ⟨h1, ?_, h1 macroDoc (by decide), by decide⟩
  intro D hD htrim
  unfold addRowsWithCAGrouping
  rw [if_pos (by rw [hD]; rfl)]
  unfold addRowsWithoutMarkers
  have hne : (jsTrim D).isEmpty = false := by
    cases hfm : jsTrim D with
    | nil => exact absurd hfm htrim
    | cons a b => rfl
  rw [if_pos (by rw [hne]; rfl)]
  rw [show fallbackSections [] = [] from rfl, List.append_nil]

theorem nil_isPrefixOf (x : Str) : List.isPrefixOf [] x = true := by
  cases x with
  | nil => rfl
  | cons a b => rfl

theorem isPrefixOf_append_self (s t : Str) : List.isPrefixOf s (s ++ t) = true := by
  induction s with
  | nil => rw [List.nil_append]; exact nil_isPrefixOf t
  | cons c cs ih => simp [List.isPrefixOf, ih]

/-- C1: the merge is non-destructive.  On the marker path `mergeStep` only
splices new text into the current result (`mergeStep_frame`), so the whole
original document survives as a subsequence of the output, and the fold's
`offset` component is exactly the cumulative length drift of the earlier
insertions (the output length is the input length plus the final offset,
and each later insertion point is shifted by the current offset by
definition of `mergeStep`).  On the fallback path the trimmed original
document is preserved verbatim as a prefix of the output. -/
theorem merge_non_destructive :
    (∀ (D : Str) (R : List TableRow), findMarkerSections D ≠ [] →
      List.Sublist D (addRowsWithCAGrouping D R)) ∧
    (∀ (D : Str) (R : List TableRow), findMarkerSections D ≠ [] →
      (addRowsWithCAGrouping D R).length = D.length +
        (List.foldl (mergeStep (groupByMarker R)) (D, 0) (findMarkerSections D)).2) ∧
    (∀ (D : Str) (R : List TableRow), findMarkerSections D = [] →
      List.isPrefixOf (jsTrim D) (addRowsWithCAGrouping D R) = true) := by
  have hmarker : ∀ (D : Str) (R : List TableRow), findMarkerSections D ≠ [] →
      addRowsWithCAGrouping D R =
        (List.foldl (mergeStep (groupByMarker R)) (D, 0) (findMarkerSections D)).1 := by
    intro D R hD
    unfold addRowsWithCAGrouping
    have hne : (findMarkerSections D).isEmpty = false := by
      cases hfm : findMarkerSections D with
      | nil => exact absurd hfm hD
      | cons a b => rfl
    rw [if_neg (by rw [hne]; exact Bool.false_ne_true)]
  refine ⟨?_, ?_, ?_⟩
  · intro D R hD
    rw [hmarker D R hD]
    exact (foldl_mergeStep_frame (groupByMarker R) D (findMarkerSections D) (D, 0)
      (List.Sublist.refl D) rfl).1
  · intro D R hD
    rw [hmarker D R hD]
    exact (foldl_mergeStep_frame (groupByMarker R) D (findMarkerSections D) (D, 0)
      (List.Sublist.refl D) rfl).2
  · intro D R hD
    unfold addRowsWithCAGrouping
    rw [if_pos (by rw [hD]; rfl)]
    unfold addRowsWithoutMarkers
    cases htrim : (jsTrim D).isEmpty with
    | true =>
      rw [if_neg (by decide)]
      rw [List.isEmpty_iff.mp htrim]
      exact nil_isPrefixOf _
    | false =>
      rw [if_pos (by decide), List.append_assoc]
      exact isPrefixOf_append_self (jsTrim D) _

/-- C6: on the fallback path (no marker sections) the merge calls
`addRowsWithoutMarkers`, which appends the serialized new sections — the new
rows grouped by CA, one heading+table fragment per group (each fragment's
rows sorted by date inside `buildCATable`) — after the trimmed original
document with a blank-line separator, so the trimmed original text is
preserved verbatim as a prefix; when the trimmed document is empty the
result is just the serialized sections. -/
theorem fallback_append_only (D : Str) (R : List TableRow)
    (hD : findMarkerSections D = []) :
    addRowsWithCAGrouping D R = addRowsWithoutMarkers D R ∧
    (jsTrim D ≠ [] →
      addRowsWithCAGrouping D R = jsTrim D ++ "\n\n".data ++ fallbackSections R) ∧
    (jsTrim D = [] → addRowsWithCAGrouping D R = fallbackSections R) := by
  have heq : addRowsWithCAGrouping D R = addRowsWithoutMarkers D R := by
    unfold addRowsWithCAGrouping
    rw [if_pos (by rw [hD]; rfl)]
  refine ⟨heq, ?_, ?_⟩
  · intro ht
    rw [heq]
    unfold addRowsWithoutMarkers
    have hne : (jsTrim D).isEmpty = false := by
      cases hfm : jsTrim D with
      | nil => exact absurd hfm ht
      | cons a b => rfl
    rw [if_pos (by rw [hne]; rfl)]
  · intro ht
    rw [heq]
    unfold addRowsWithoutMarkers
    rw [if_neg (by rw [ht]; decide)]

theorem fallback_append_only_witness :
    findMarkerSections ("<p>x</p>".data) = [] ∧
    jsTrim ("<p>x</p>".data) ≠ [] ∧
    addRowsWithCAGrouping ("<p>x</p>".data) [] =
      jsTrim ("<p>x</p>".data) ++ "\n\n".data ++ fallbackSections [] :=
  ⟨by decide, by decide,
    (fallback_append_only ("<p>x</p>".data) [] (by decide)).2.1 (by decide)⟩

/-- A document whose only delimiters are the plain inline-comment dialect
(`<!-- NAME-START -->` / `<!-- NAME-END -->`). -/
def plainDoc : Str :=
  ("<p>intro</p>\n<!-- SECTIGO-START -->\n<table><tbody><tr><td>x</td></tr>" ++
   "</tbody></table>\n<!-- SECTIGO-END -->\n<!-- SDV-START -->\n<p>y</p>\n" ++
   "<!-- SDV-END -->\n<p>tail</p>").data

/-- C5 (refuted): the final `findMarkerSections` only recognises the
structured-macro dialect and has no plain-dialect retry — on a document
containing only plain `<!-- NAME-START/END -->` delimiter pairs it returns
no regions at all, although both plain delimiters of two complete pairs are
present in the document. -/
theorem plain_dialect_markers_not_found :
    strIncludes plainDoc ("<!-- SECTIGO-START -->".data) = true ∧
    strIncludes plainDoc ("<!-- SECTIGO-END -->".data) = true ∧
    strIncludes plainDoc ("<!-- SDV-START -->".data) = true ∧
    strIncludes plainDoc ("<!-- SDV-END -->".data) = true ∧
    findMarkerSections plainDoc = [] := by
  refine ⟨by decide, by decide, by decide, by decide, by decide⟩

theorem getMarkerSectionForCA_total (s : Str) :
    (getMarkerSectionForCA s).isSome = true := by
  unfold getMarkerSectionForCA
  repeat' split
  all_goals rfl

theorem assocAppend_sizes (k : Str) (v : TableRow) :
    ∀ m : List (Str × List TableRow),
      ((assocAppend k v m).map (fun p => p.2.length)).sum =
        ((m.map (fun p => p.2.length)).sum) + 1 := by
  intro m
  induction m with
  | nil => simp [assocAppend]
  | cons p rest ih =>
    obtain ⟨k', vs⟩ := p
    rw [assocAppend]
    by_cases h : k' = k
    · rw [if_pos h]
      simp only [List.map_cons, List.sum_cons, List.length_append,
        List.length_cons, List.length_nil]
      omega
    · rw [if_neg h]
      simp only [List.map_cons, List.sum_cons, ih]
      omega

theorem groupByMarker_mass :
    ∀ (rows : List TableRow) (m : List (Str × List TableRow)),
      ((List.foldl (fun m row =>
          match getMarkerSectionForCA row.issuingCA with
          | none => m
          | some name => assocAppend name row m) m rows).map
        (fun p => p.2.length)).sum =
        ((m.map (fun p => p.2.length)).sum) + rows.length := by
  intro rows
  induction rows with
  | nil => intro m; simp
  | cons r rest ih =>
    intro m
    rw [List.foldl_cons]
    cases hg : getMarkerSectionForCA r.issuingCA with
    | none =>
      have htot := getMarkerSectionForCA_total r.issuingCA
      rw [hg] at htot
      cases htot
    | some name =>
      dsimp only
      rw [ih (assocAppend name r m), assocAppend_sizes]
      simp only [List.length_cons]
      omega

/-- C9 — implicit: classification is total.  `getMarkerSectionForCA` always
returns a bucket (the `LEGACY` default at worst), so the null-bucket skip in
the grouping loop of `addRowsWithCAGrouping` is unreachable: the groups
built by `groupByMarker` always hold all of the batch's rows. -/
theorem classification_total_no_row_dropped :
    (∀ s : Str, (getMarkerSectionForCA s).isSome = true) ∧
    (∀ rows : List TableRow,
      ((groupByMarker rows).map (fun p => p.2.length)).sum = rows.length) := by
  refine ⟨getMarkerSectionForCA_total, ?_⟩
  intro rows
  unfold groupByMarker
  rw [groupByMarker_mass rows []]
  simp

/-- A document whose first structured-macro start marker (ALPHA) has no
matching end marker, followed by a complete SECTIGO marker pair. -/
def brokenDoc : Str :=
  ("<p>head</p><ac:structured-macro ac:name=\"htmlcomment\"><ac:rich-text-body>" ++
   "<p>ALPHA-START</p></ac:rich-text-body></ac:structured-macro>ORPHAN" ++
   "<ac:structured-macro ac:name=\"htmlcomment\"><ac:rich-text-body>" ++
   "<p>SECTIGO-START</p></ac:rich-text-body></ac:structured-macro>GOOD" ++
   "<ac:structured-macro ac:name=\"htmlcomment\"><ac:rich-text-body>" ++
   "<p>SECTIGO-END</p></ac:rich-text-body></ac:structured-macro><p>tail</p>").data

/-- C8: a start marker with no matching end marker is skipped, not fatal.
In general, when the end-marker scan for a found start marker fails, the
section loop pushes nothing and continues scanning right after that start
marker.  On `brokenDoc` the unmatched ALPHA start marker — the first start
marker of the document — is excluded from the returned sections while the
later well-formed SECTIGO region is still returned. -/
theorem missing_end_marker_skipped :
    (∀ (content : Str) (fuel pos off : Nat) (name rest : Str),
        scanFor matchMacroStartAt (content.drop pos) = some (off, (name, rest)) →
        scanFor (matchMacroEndAt name) rest = none →
        findMarkerSectionsAux content (fuel + 1) pos =
          findMarkerSectionsAux content fuel (content.length - rest.length)) ∧
    (findMarkerSections brokenDoc).map (fun sec => sec.markerName) =
      [("SECTIGO".data : Str)] ∧
    (scanFor matchMacroStartAt brokenDoc).map (fun p => p.2.1) =
      some ("ALPHA".data) := by
  refine ⟨?_, by decide, by decide⟩
  intro content fuel pos off name rest h1 h2
  rw [findMarkerSectionsAux, h1]
  dsimp only
  rw [h2]
